import Mathlib

/-!
Shallow embedding of the ET/AET polygon scanline-fill algorithm of this
repository.  The namespace Trab1 models GLCanvas.build_edge_table and
GLCanvas.compute_scanline_spans from trab1.py; the namespace Preenche models
create_et and fill_polygon from preenche.py.  Coordinates are modelled as
exact rationals.
-/

/-- Round to the nearest integer with ties going to the even integer,
matching the Python builtin round applied to a float. -/
def pyRound (q : ℚ) : ℤ :=
  if Int.fract q < 1/2 then ⌊q⌋
  else if 1/2 < Int.fract q then ⌊q⌋ + 1
  else if 2 ∣ ⌊q⌋ then ⌊q⌋ else ⌊q⌋ + 1

/-- Truncation toward zero, matching the Python int() conversion of a float. -/
def pyTrunc (q : ℚ) : ℤ := Int.tdiv q.num (q.den : ℤ)

/-- Insert an element into a list, after every element b with le b a, so that
folding this over a list models a stable sort. -/
def insertLe {α : Type} (le : α → α → Bool) (a : α) : List α → List α
  | [] => [a]
  | b :: l => if le b a then b :: insertLe le a l else a :: b :: l

/-- Stable sort with respect to the boolean total preorder le; equal-key
elements keep their relative input order, as the Python list sort does. -/
def stableSort {α : Type} (le : α → α → Bool) (l : List α) : List α :=
  l.foldl (fun s a => insertLe le a s) []

namespace Trab1

/-- Edge record of trab1.py: ymax is the last active scanline stored by
build_edge_table, x the current intersection, inv_slope the x increment
per scanline. -/
structure Edge where
  ymax : ℤ
  x : ℚ
  inv_slope : ℚ
deriving Repr, DecidableEq

/-- Sort key used on the AET: current x ascending, ties broken by inv_slope
ascending, as in AET.sort(key=(e.x, e.inv_slope)). -/
def edgeLe (a b : Edge) : Bool :=
  decide (a.x < b.x) || (decide (a.x = b.x) && decide (a.inv_slope ≤ b.inv_slope))

/-- Loop body of build_edge_table for vertex index i: either the pair is
skipped, or it yields the bucket key y_start together with the Edge record
appended to that bucket. -/
def edgeOf (vertices : List (ℚ × ℚ)) (height : ℤ) (i : ℕ) : Option (ℤ × Edge) :=
  let n := vertices.length
  let p1 := vertices.getD i (0, 0)
  let p2 := vertices.getD ((i + 1) % n) (0, 0)
  if pyRound p1.2 = pyRound p2.2 then none
  else
    let ymin : ℚ := if p1.2 < p2.2 then p1.2 else p2.2
    let ymax : ℚ := if p1.2 < p2.2 then p2.2 else p1.2
    let x_at_ymin : ℚ := if p1.2 < p2.2 then p1.1 else p2.1
    let dy : ℚ := if p1.2 < p2.2 then p2.2 - p1.2 else p1.2 - p2.2
    let dx : ℚ := if p1.2 < p2.2 then p2.1 - p1.1 else p1.1 - p2.1
    let inv_slope := dx / dy
    let y_start : ℤ := max 0 (pyRound (min ymin (height : ℚ)))
    let y_end : ℤ := min height (pyRound (max 0 ymax - 1))
    let x_int : ℚ :=
      if dy = 0 then x_at_ymin
      else x_at_ymin + inv_slope * ((y_start : ℚ) - ymin)
    if 0 ≤ y_start ∧ y_start ≤ height ∧ y_start ≤ y_end then
      some (y_start, { ymax := y_end, x := x_int, inv_slope := inv_slope })
    else none

/-- Edge Table of trab1.py: one bucket per integer scanline in [0, height];
each non-skipped edge is appended to the bucket of its y_start in vertex
iteration order. -/
def build_edge_table (vertices : List (ℚ × ℚ)) (height : ℤ) : List (List Edge) :=
  (List.range vertices.length).foldl
    (fun ET i =>
      match edgeOf vertices height i with
      | none => ET
      | some (k, e) => ET.set k.toNat (ET.getD k.toNat [] ++ [e]))
    (List.replicate (height + 1).toNat [])

/-- Bucket of the Edge Table at scanline y. -/
def bucketAt (ET : List (List Edge)) (y : ℤ) : List Edge := ET.getD y.toNat []

/-- Width threshold 1e-6 below which a span is suppressed. -/
def eps : ℚ := 1 / 1000000

/-- Pair consecutive AET entries two at a time, swapping a pair into
(left, right) order when needed and silently dropping an odd trailing edge. -/
def pairs : List Edge → List (ℚ × ℚ)
  | e1 :: e2 :: rest =>
      (if e1.x > e2.x then (e2.x, e1.x) else (e1.x, e2.x)) :: pairs rest
  | _ => []

/-- Spans emitted for scanline y from the sorted AET: the pairs whose width
exceeds eps, tagged with y. -/
def emitAt (y : ℤ) (A : List Edge) : List (ℤ × ℚ × ℚ) :=
  ((pairs A).filter (fun p => decide (p.2 - p.1 > eps))).map (fun p => (y, p.1, p.2))

/-- Advance an edge to the next scanline: x += inv_slope. -/
def advance (e : Edge) : Edge := { e with x := e.x + e.inv_slope }

/-- Advance every member of the AET. -/
def advanceAll (A : List Edge) : List Edge := A.map advance

/-- AET maintenance for scanline y: append the bucket of y, drop edges with
y > ymax, and sort by (x, inv_slope). -/
def activeAt (ET : List (List Edge)) (A : List Edge) (y : ℤ) : List Edge :=
  stableSort edgeLe ((A ++ bucketAt ET y).filter (fun e => decide (y ≤ e.ymax)))

/-- State of the AET when the iteration for scanline y begins, that is after
the advance step of the previous iteration. -/
def aetEnter (ET : List (List Edge)) : ℕ → List Edge
  | 0 => []
  | y + 1 => advanceAll (activeAt ET (aetEnter ET y) (y : ℤ))

/-- Sorted AET from which spans are emitted at scanline y. -/
def aetAt (ET : List (List Edge)) (y : ℕ) : List Edge :=
  activeAt ET (aetEnter ET y) (y : ℤ)

/-- Spans emitted by the iterations for scanlines 0..k-1, in order. -/
def spansUpTo (ET : List (List Edge)) : ℕ → List (ℤ × ℚ × ℚ)
  | 0 => []
  | y + 1 => spansUpTo ET y ++ emitAt (y : ℤ) (aetAt ET y)

/-- Scanline spans of trab1.py, GLCanvas.compute_scanline_spans: sweep the
scanlines 0..height carrying the AET and collect the emitted spans. -/
def compute_scanline_spans (vertices : List (ℚ × ℚ)) (height : ℤ) :
    List (ℤ × ℚ × ℚ) :=
  spansUpTo (build_edge_table vertices height) (height + 1).toNat

/-- Spans of the output that lie on scanline y. -/
def spansAtScanline (spans : List (ℤ × ℚ × ℚ)) (y : ℤ) : List (ℤ × ℚ × ℚ) :=
  spans.filter (fun s => decide (s.1 = y))

/-- First vertex of the pair read at loop index i of build_edge_table. -/
def p1of (v : List (ℚ × ℚ)) (i : ℕ) : ℚ × ℚ := v.getD i (0, 0)

/-- Second vertex of the pair read at loop index i of build_edge_table. -/
def p2of (v : List (ℚ × ℚ)) (i : ℕ) : ℚ × ℚ := v.getD ((i + 1) % v.length) (0, 0)

/-- Lower endpoint y of edge i after direction normalization. -/
def yminOf (v : List (ℚ × ℚ)) (i : ℕ) : ℚ :=
  if (p1of v i).2 < (p2of v i).2 then (p1of v i).2 else (p2of v i).2

/-- Upper endpoint y of edge i after direction normalization. -/
def ymaxOf (v : List (ℚ × ℚ)) (i : ℕ) : ℚ :=
  if (p1of v i).2 < (p2of v i).2 then (p2of v i).2 else (p1of v i).2

/-- The x coordinate at the lower endpoint of edge i. -/
def xAtYminOf (v : List (ℚ × ℚ)) (i : ℕ) : ℚ :=
  if (p1of v i).2 < (p2of v i).2 then (p1of v i).1 else (p2of v i).1

/-- Vertical extent dy of edge i as computed by build_edge_table. -/
def dyOf (v : List (ℚ × ℚ)) (i : ℕ) : ℚ :=
  if (p1of v i).2 < (p2of v i).2 then (p2of v i).2 - (p1of v i).2
  else (p1of v i).2 - (p2of v i).2

/-- Horizontal extent dx of edge i as computed by build_edge_table. -/
def dxOf (v : List (ℚ × ℚ)) (i : ℕ) : ℚ :=
  if (p1of v i).2 < (p2of v i).2 then (p2of v i).1 - (p1of v i).1
  else (p1of v i).1 - (p2of v i).1

/-- Inverse slope of edge i. -/
def invSlopeOf (v : List (ℚ × ℚ)) (i : ℕ) : ℚ := dxOf v i / dyOf v i

/-- First active scanline of edge i, clamped as in build_edge_table. -/
def yStartOf (v : List (ℚ × ℚ)) (h : ℤ) (i : ℕ) : ℤ :=
  max 0 (pyRound (min (yminOf v i) (h : ℚ)))

/-- Last active scanline of edge i, clamped as in build_edge_table. -/
def yEndOf (v : List (ℚ × ℚ)) (h : ℤ) (i : ℕ) : ℤ :=
  min h (pyRound (max 0 (ymaxOf v i) - 1))

/-- Starting x of edge i adjusted to its first active scanline. -/
def xIntOf (v : List (ℚ × ℚ)) (h : ℤ) (i : ℕ) : ℚ :=
  if dyOf v i = 0 then xAtYminOf v i
  else xAtYminOf v i + invSlopeOf v i * ((yStartOf v h i : ℚ) - yminOf v i)

/-- Comparison on tagged edges: compares only the edge component, as the
Python sort key ignores object identity. -/
def iLe (a b : ℕ × Edge) : Bool := edgeLe a.2 b.2

/-- Tagged bucket of scanline y: each produced edge with bucket key y, paired
with the loop index that created it. -/
def ibucketAt (v : List (ℚ × ℚ)) (h : ℤ) (y : ℤ) : List (ℕ × Edge) :=
  (List.range v.length).filterMap (fun i =>
    (edgeOf v h i).bind (fun p => if p.1 = y then some (i, p.2) else none))

/-- Tagged AET maintenance for scanline y. -/
def iActiveAt (v : List (ℚ × ℚ)) (h : ℤ) (A : List (ℕ × Edge)) (y : ℤ) :
    List (ℕ × Edge) :=
  stableSort iLe ((A ++ ibucketAt v h y).filter (fun e => decide (y ≤ e.2.ymax)))

/-- Advance every tagged edge. -/
def iAdvanceAll (A : List (ℕ × Edge)) : List (ℕ × Edge) :=
  A.map (fun e => (e.1, advance e.2))

/-- Tagged AET when the iteration for scanline y begins. -/
def iAetEnter (v : List (ℚ × ℚ)) (h : ℤ) : ℕ → List (ℕ × Edge)
  | 0 => []
  | y + 1 => iAdvanceAll (iActiveAt v h (iAetEnter v h y) (y : ℤ))

/-- Tagged sorted AET at scanline y. -/
def iAetAt (v : List (ℚ × ℚ)) (h : ℤ) (y : ℕ) : List (ℕ × Edge) :=
  iActiveAt v h (iAetEnter v h y) (y : ℤ)

/-- Edge advanced by m scanlines: x has grown by m * inv_slope. -/
def eAt (e : Edge) (m : ℕ) : Edge := { e with x := e.x + m * e.inv_slope }

/-- Canonical description of the tagged AET at scanline y: index i is present
exactly when edgeOf produced it with bucket key at most y and y at most its
stored ymax, its x advanced once per elapsed scanline. -/
def activeIdx (v : List (ℚ × ℚ)) (h : ℤ) (y : ℤ) : List (ℕ × Edge) :=
  (List.range v.length).filterMap (fun i =>
    (edgeOf v h i).bind (fun p =>
      if p.1 ≤ y ∧ y ≤ p.2.ymax then some (i, eAt p.2 (y - p.1).toNat) else none))

/-- Emit stage as the specification words it: consume the sorted AET two at
a time, each pair contributing the span from the smaller to the larger
current x. -/
def specPairs : List Edge → List (ℚ × ℚ)
  | e1 :: e2 :: rest => (min e1.x e2.x, max e1.x e2.x) :: specPairs rest
  | _ => []

/-- Emit stage of the specification for scanline y: sort the AET by current
x ascending with ties broken by inv_slope ascending, pair in order dropping
an odd trailing edge, and keep only spans wider than 1e-6. -/
def specEmitAt (y : ℤ) (A : List Edge) : List (ℤ × ℚ × ℚ) :=
  ((specPairs (stableSort edgeLe A)).filter (fun p => decide (p.2 - p.1 > eps))).map
    (fun p => (y, p.1, p.2))

/-- Raw AET at scanline y after activation and deactivation, before sorting. -/
def aetRawAt (ET : List (List Edge)) (y : ℕ) : List Edge :=
  (aetEnter ET y ++ bucketAt ET (y : ℤ)).filter (fun e => decide ((y : ℤ) ≤ e.ymax))

/-- Pair list of scanline y (the pairs variable of compute_scanline_spans)
with both endpoints truncated toward zero as preenche.py truncates them,
collected for scanlines 0..k-1. -/
def truncPairsUpTo (ET : List (List Edge)) : ℕ → List (ℤ × ℤ × ℤ)
  | 0 => []
  | y + 1 => truncPairsUpTo ET y ++
      (pairs (aetAt ET y)).map (fun p => ((y : ℤ), pyTrunc p.1, pyTrunc p.2))

/-- Every pair computed by the sweep of compute_scanline_spans, before the
width filter, with endpoints truncated toward zero. -/
def trab1TruncPairs (vertices : List (ℚ × ℚ)) (height : ℤ) : List (ℤ × ℤ × ℤ) :=
  truncPairsUpTo (build_edge_table vertices height) (height + 1).toNat

end Trab1

namespace Preenche

/-- Edge record of preenche.py: y_min, y_max, current x and inverse slope. -/
structure Edge where
  y_min : ℚ
  y_max : ℚ
  x : ℚ
  slope_inv : ℚ
deriving Repr, DecidableEq

/-- Stable comparison induced by the lt operator on x used by aet.sort(). -/
def xLe (a b : Edge) : Bool := decide (a.x ≤ b.x)

/-- Stable comparison by y_min used to sort the edge table. -/
def ymLe (a b : Edge) : Bool := decide (a.y_min ≤ b.y_min)

/-- Loop body of create_et for index i: skip a horizontal edge, otherwise
swap the endpoints so that the first one is the lower one and build the
Edge record. -/
def pedgeOf (points : List (ℚ × ℚ)) (i : ℕ) : Option Edge :=
  let n := points.length
  let p1 := points.getD i (0, 0)
  let p2 := points.getD ((i + 1) % n) (0, 0)
  if p1.2 = p2.2 then none
  else
    let q1 := if p1.2 > p2.2 then p2 else p1
    let q2 := if p1.2 > p2.2 then p1 else p2
    some { y_min := q1.2, y_max := q2.2, x := q1.1,
           slope_inv := (q2.1 - q1.1) / (q2.2 - q1.2) }

/-- Edge Table of preenche.py: the produced edges sorted by y_min, stably. -/
def create_et (points : List (ℚ × ℚ)) : List Edge :=
  stableSort ymLe ((List.range points.length).filterMap (pedgeOf points))

/-- Smallest vertex y of the polygon, as min over the point list. -/
def yMinPoly (points : List (ℚ × ℚ)) : ℚ :=
  ((points.map Prod.snd).min?).getD 0

/-- Largest vertex y of the polygon, as max over the point list. -/
def yMaxPoly (points : List (ℚ × ℚ)) : ℚ :=
  ((points.map Prod.snd).max?).getD 0

/-- Sorted AET of one iteration at scanline y, given the entering state
(remaining edge table, AET): activate edges whose y_min equals y, drop edges
with y_max not above y, and sort by x. -/
def preActive (st : List Edge × List Edge) (y : ℤ) : List Edge :=
  stableSort xLe
    ((st.2 ++ st.1.filter (fun e => decide (e.y_min = (y : ℚ)))).filter
      (fun e => decide ((y : ℚ) < e.y_max)))

/-- Remaining edge table after the activation scan of scanline y. -/
def preEtAfter (et : List Edge) (y : ℤ) : List Edge :=
  et.filter (fun e => !decide (e.y_min = (y : ℚ)))

/-- Advance every AET member by its inverse slope. -/
def pAdvanceAll (A : List Edge) : List Edge :=
  A.map (fun e => { e with x := e.x + e.slope_inv })

/-- State (remaining edge table, AET) entering iteration j of fill_polygon;
iteration j processes scanline pyTrunc(yMinPoly) + j. -/
def preEnter (points : List (ℚ × ℚ)) : ℕ → List Edge × List Edge
  | 0 => (create_et points, [])
  | j + 1 =>
      (preEtAfter (preEnter points j).1 (pyTrunc (yMinPoly points) + j),
       pAdvanceAll (preActive (preEnter points j) (pyTrunc (yMinPoly points) + j)))

/-- Sorted AET of iteration j of fill_polygon. -/
def preAetAt (points : List (ℚ × ℚ)) (j : ℕ) : List Edge :=
  preActive (preEnter points j) (pyTrunc (yMinPoly points) + j)

/-- Consecutive pairing of the sorted AET into drawn runs, endpoints
truncated toward zero, odd trailing edge dropped. -/
def runPairs (y : ℤ) : List Edge → List (ℤ × ℤ × ℤ)
  | e1 :: e2 :: rest => (y, pyTrunc e1.x, pyTrunc e2.x) :: runPairs y rest
  | _ => []

/-- Runs drawn by the iterations 0..j-1 of fill_polygon. -/
def runsUpTo (points : List (ℚ × ℚ)) : ℕ → List (ℤ × ℤ × ℤ)
  | 0 => []
  | j + 1 => runsUpTo points j ++
      runPairs (pyTrunc (yMinPoly points) + j) (preAetAt points j)

/-- Horizontal pixel runs drawn by fill_polygon of preenche.py: nothing for
fewer than 3 points, otherwise one run per AET pair for each scanline from
int(min y) to int(max y). -/
def fill_polygon_runs (points : List (ℚ × ℚ)) : List (ℤ × ℤ × ℤ) :=
  if points.length < 3 then []
  else runsUpTo points (pyTrunc (yMaxPoly points) + 1 - pyTrunc (yMinPoly points)).toNat

/-- Tagged comparison by y_min. -/
def iymLe (a b : ℕ × Edge) : Bool := ymLe a.2 b.2

/-- Tagged comparison by x. -/
def ixLe (a b : ℕ × Edge) : Bool := xLe a.2 b.2

/-- Tagged edge table of create_et. -/
def ipCreate (points : List (ℚ × ℚ)) : List (ℕ × Edge) :=
  stableSort iymLe
    ((List.range points.length).filterMap (fun i =>
      (pedgeOf points i).map (fun e => (i, e))))

/-- Tagged AET of one iteration. -/
def ipreActive (st : List (ℕ × Edge) × List (ℕ × Edge)) (y : ℤ) : List (ℕ × Edge) :=
  stableSort ixLe
    ((st.2 ++ st.1.filter (fun e => decide (e.2.y_min = (y : ℚ)))).filter
      (fun e => decide ((y : ℚ) < e.2.y_max)))

/-- Tagged remaining edge table after activation at scanline y. -/
def ipreEtAfter (et : List (ℕ × Edge)) (y : ℤ) : List (ℕ × Edge) :=
  et.filter (fun e => !decide (e.2.y_min = (y : ℚ)))

/-- Advance every tagged AET member. -/
def ipAdvanceAll (A : List (ℕ × Edge)) : List (ℕ × Edge) :=
  A.map (fun e => (e.1, { e.2 with x := e.2.x + e.2.slope_inv }))

/-- Tagged state entering iteration j of fill_polygon. -/
def ipreEnter (points : List (ℚ × ℚ)) : ℕ → List (ℕ × Edge) × List (ℕ × Edge)
  | 0 => (ipCreate points, [])
  | j + 1 =>
      (ipreEtAfter (ipreEnter points j).1 (pyTrunc (yMinPoly points) + j),
       ipAdvanceAll (ipreActive (ipreEnter points j) (pyTrunc (yMinPoly points) + j)))

/-- Tagged sorted AET of iteration j. -/
def ipreAetAt (points : List (ℚ × ℚ)) (j : ℕ) : List (ℕ × Edge) :=
  ipreActive (ipreEnter points j) (pyTrunc (yMinPoly points) + j)

/-- Edge advanced by m scanlines. -/
def pAt (e : Edge) (m : ℕ) : Edge := { e with x := e.x + m * e.slope_inv }

/-- Canonical description of the tagged preenche AET at integer scanline y,
valid for polygons whose vertex y coordinates are integers: index i is
present exactly when its y_min is at most y and y is below its y_max. -/
def pActiveIdx (points : List (ℚ × ℚ)) (y : ℤ) : List (ℕ × Edge) :=
  (List.range points.length).filterMap (fun i =>
    (pedgeOf points i).bind (fun e =>
      if e.y_min ≤ (y : ℚ) ∧ (y : ℚ) < e.y_max then
        some (i, pAt e (y - pyTrunc e.y_min).toNat) else none))

/-- Canonical description of the tagged remaining edge table at scanline y:
the produced edges not yet activated. -/
def pPendingIdx (points : List (ℚ × ℚ)) (y : ℤ) : List (ℕ × Edge) :=
  (List.range points.length).filterMap (fun i =>
    (pedgeOf points i).bind (fun e =>
      if (y : ℚ) ≤ e.y_min then some (i, e) else none))

end Preenche

theorem stableSort_pair {α : Type} (le : α → α → Bool) (a b : α) :
    stableSort le [a, b] = if le a b then [a, b] else [b, a] := by
  by_cases h : le a b <;> simp [stableSort, insertLe, h]

theorem mem_insertLe {α : Type} (le : α → α → Bool) (a x : α) :
    ∀ l : List α, x ∈ insertLe le a l ↔ x = a ∨ x ∈ l := by
  intro l
  induction l with
  | nil => simp [insertLe]
  | cons b t ih =>
      by_cases h : le b a
      · simp only [insertLe, h, if_pos, List.mem_cons, ih]
        tauto
      · simp only [insertLe, h, if_neg, Bool.false_eq_true, not_false_iff,
          List.mem_cons]

theorem perm_insertLe {α : Type} (le : α → α → Bool) (a : α) :
    ∀ l : List α, (insertLe le a l).Perm (a :: l) := by
  intro l
  induction l with
  | nil => simp [insertLe]
  | cons b t ih =>
      by_cases h : le b a
      · simp only [insertLe, h, if_pos]
        exact (ih.cons b).trans (List.Perm.swap a b t)
      · simp [insertLe, h]

theorem perm_foldl_insertLe {α : Type} (le : α → α → Bool) :
    ∀ (l s : List α), (l.foldl (fun s a => insertLe le a s) s).Perm (s ++ l) := by
  intro l
  induction l with
  | nil => simp
  | cons a t ih =>
      intro s
      have h1 : (t.foldl (fun s a => insertLe le a s) (insertLe le a s)).Perm
          (insertLe le a s ++ t) := ih _
      have h2 : (insertLe le a s ++ t).Perm ((a :: s) ++ t) :=
        (perm_insertLe le a s).append_right t
      have h3 : ((a :: s) ++ t).Perm (s ++ a :: t) := List.perm_middle.symm
      exact (h1.trans h2).trans h3

theorem perm_stableSort {α : Type} (le : α → α → Bool) (l : List α) :
    (stableSort le l).Perm l := by
  simpa using perm_foldl_insertLe le l []

theorem mem_stableSort {α : Type} (le : α → α → Bool) (l : List α) (x : α) :
    x ∈ stableSort le l ↔ x ∈ l :=
  (perm_stableSort le l).mem_iff

theorem length_stableSort {α : Type} (le : α → α → Bool) (l : List α) :
    (stableSort le l).length = l.length :=
  (perm_stableSort le l).length_eq

theorem pairwise_insertLe {α : Type} (le : α → α → Bool)
    (htot : ∀ a b, le a b ∨ le b a) (htrans : ∀ a b c, le a b → le b c → le a c)
    (a : α) : ∀ l : List α, l.Pairwise (fun x y => le x y = true) →
      (insertLe le a l).Pairwise (fun x y => le x y = true) := by
  intro l
  induction l with
  | nil => simp [insertLe]
  | cons b t ih =>
      intro hp
      rcases List.pairwise_cons.mp hp with ⟨hb, ht⟩
      by_cases h : le b a
      · simp only [insertLe, h, if_pos]
        refine List.pairwise_cons.mpr ⟨?_, ih ht⟩
        intro x hx
        rcases (mem_insertLe le a x t).mp hx with rfl | hx
        · exact h
        · exact hb x hx
      · have hab : le a b := by
          rcases htot a b with h1 | h1
          · exact h1
          · exact absurd h1 h
        simp only [insertLe, h, if_neg, Bool.false_eq_true, not_false_iff]
        refine List.pairwise_cons.mpr ⟨?_, hp⟩
        intro x hx
        rcases List.mem_cons.mp hx with rfl | hx
        · exact hab
        · exact htrans a b x hab (hb x hx)

theorem pairwise_stableSort {α : Type} (le : α → α → Bool)
    (htot : ∀ a b, le a b ∨ le b a) (htrans : ∀ a b c, le a b → le b c → le a c)
    (l : List α) : (stableSort le l).Pairwise (fun x y => le x y = true) := by
  have key : ∀ (l s : List α), s.Pairwise (fun x y => le x y = true) →
      (l.foldl (fun s a => insertLe le a s) s).Pairwise (fun x y => le x y = true) := by
    intro l
    induction l with
    | nil => intro s hs; exact hs
    | cons a t ih =>
        intro s hs
        exact ih _ (pairwise_insertLe le htot htrans a s hs)
  exact key l [] (List.Pairwise.nil)

theorem map_insertLe {α β : Type} (le : β → β → Bool) (le' : α → α → Bool)
    (f : α → β) (hc : ∀ a b, le' a b = le (f a) (f b)) (a : α) :
    ∀ l : List α, (insertLe le' a l).map f = insertLe le (f a) (l.map f) := by
  intro l
  induction l with
  | nil => simp [insertLe]
  | cons b t ih =>
      by_cases h : le' b a
      · have h2 : le (f b) (f a) := by rw [← hc]; exact h
        simp [insertLe, h, h2, ih]
      · have h2 : ¬ le (f b) (f a) = true := by rw [← hc]; exact h
        simp [insertLe, h, h2]

theorem map_stableSort {α β : Type} (le : β → β → Bool) (le' : α → α → Bool)
    (f : α → β) (hc : ∀ a b, le' a b = le (f a) (f b)) (l : List α) :
    (stableSort le' l).map f = stableSort le (l.map f) := by
  have key : ∀ (l s : List α),
      (l.foldl (fun s a => insertLe le' a s) s).map f =
        (l.map f).foldl (fun s a => insertLe le a s) (s.map f) := by
    intro l
    induction l with
    | nil => intro s; rfl
    | cons a t ih =>
        intro s
        calc ((a :: t).foldl (fun s a => insertLe le' a s) s).map f
            = (t.foldl (fun s a => insertLe le' a s) (insertLe le' a s)).map f := rfl
          _ = (t.map f).foldl (fun s a => insertLe le a s) ((insertLe le' a s).map f) :=
              ih _
          _ = (t.map f).foldl (fun s a => insertLe le a s)
                (insertLe le (f a) (s.map f)) := by
              rw [map_insertLe le le' f hc]
  exact key l []

theorem pyRound_intCast (m : ℤ) : pyRound (m : ℚ) = m := by
  simp [pyRound, Int.fract_intCast]

theorem perm_filterMap_append {α β : Type} (f g : α → Option β)
    (l : List α) (hdisj : ∀ a ∈ l, f a = none ∨ g a = none) :
    (l.filterMap f ++ l.filterMap g).Perm (l.filterMap (fun a => (f a).or (g a))) := by
  induction l with
  | nil => simp
  | cons a t ih =>
      have ht : ∀ x ∈ t, f x = none ∨ g x = none := fun x hx =>
        hdisj x (List.mem_cons_of_mem a hx)
      have hih := ih ht
      rcases hfa : f a with _ | b
      · rcases hga : g a with _ | c
        · simp only [List.filterMap_cons, hfa, hga, Option.none_or]
          exact hih
        · simp only [List.filterMap_cons, hfa, hga, Option.none_or]
          exact (List.perm_middle).trans (hih.cons c)
      · have hga : g a = none := by
          rcases hdisj a (List.mem_cons_self a t) with h | h
          · rw [hfa] at h; cases h
          · exact h
        simp only [List.filterMap_cons, hfa, hga, Option.or_some]
        exact hih.cons b

theorem list_getD_set_self {α : Type} (a d : α) :
    ∀ (l : List α) (n : ℕ), n < l.length → (l.set n a).getD n d = a := by
  intro l
  induction l with
  | nil => intro n hn; simp at hn
  | cons b t ih =>
      intro n hn
      cases n with
      | zero => rfl
      | succ m => exact ih m (by simpa using hn)

theorem list_getD_set_ne {α : Type} (a d : α) :
    ∀ (l : List α) (n m : ℕ), n ≠ m → (l.set n a).getD m d = l.getD m d := by
  intro l
  induction l with
  | nil => intro n m _; simp
  | cons b t ih =>
      intro n m hnm
      cases n with
      | zero =>
          cases m with
          | zero => exact absurd rfl hnm
          | succ k => rfl
      | succ j =>
          cases m with
          | zero => rfl
          | succ k => exact ih j k (fun hh => hnm (by rw [hh]))

theorem list_getD_replicate {α : Type} (d : α) :
    ∀ (m j : ℕ), (List.replicate m d).getD j d = d := by
  intro m
  induction m with
  | zero => intro j; simp
  | succ p ih =>
      intro j
      cases j with
      | zero => rfl
      | succ q => exact ih q

namespace Trab1

theorem edgeOf_eq (v : List (ℚ × ℚ)) (h : ℤ) (i : ℕ) :
    edgeOf v h i =
      if pyRound (p1of v i).2 = pyRound (p2of v i).2 then none
      else if 0 ≤ yStartOf v h i ∧ yStartOf v h i ≤ h ∧ yStartOf v h i ≤ yEndOf v h i
      then some (yStartOf v h i,
        { ymax := yEndOf v h i, x := xIntOf v h i, inv_slope := invSlopeOf v i })
      else none := rfl

theorem edgeOf_bounds (v : List (ℚ × ℚ)) (h : ℤ) (i : ℕ) (k : ℤ) (e : Edge)
    (hE : edgeOf v h i = some (k, e)) : 0 ≤ k ∧ k ≤ h ∧ e.ymax ≤ h := by
  rw [edgeOf_eq] at hE
  split at hE
  · exact absurd hE (by simp)
  · split at hE
    · rename_i hcond
      simp only [Option.some.injEq, Prod.mk.injEq] at hE
      obtain ⟨hk, he⟩ := hE
      subst hk
      subst he
      refine ⟨hcond.1, hcond.2.1, ?_⟩
      exact min_le_left _ _
    · exact absurd hE (by simp)

theorem bucketAt_foldl (v : List (ℚ × ℚ)) (h : ℤ) :
    ∀ (L : List ℕ) (T : List (List Edge)), T.length = (h + 1).toNat →
      ∀ k : ℤ, 0 ≤ k →
      bucketAt (L.foldl (fun ET i =>
        match edgeOf v h i with
        | none => ET
        | some (k, e) => ET.set k.toNat (ET.getD k.toNat [] ++ [e])) T) k =
      bucketAt T k ++
        ((L.filterMap (edgeOf v h)).filter (fun p => decide (p.1 = k))).map Prod.snd := by
  intro L
  induction L with
  | nil =>
      intro T hT k hk
      simp
  | cons i L ih =>
      intro T hT k hk
      rcases hE : edgeOf v h i with _ | ⟨k1, e⟩
      · simp only [List.foldl_cons, hE, List.filterMap_cons]
        exact ih T hT k hk
      · obtain ⟨hk1a, hk1b, _⟩ := edgeOf_bounds v h i k1 e hE
        have hlt : k1.toNat < T.length := by
          rw [hT]; omega
        have hlen : (T.set k1.toNat (T.getD k1.toNat [] ++ [e])).length = (h + 1).toNat := by
          rw [List.length_set, hT]
        have hrec := ih (T.set k1.toNat (T.getD k1.toNat [] ++ [e])) hlen k hk
        simp only [List.foldl_cons, hE, List.filterMap_cons]
        rw [hrec]
        by_cases hkk : k1 = k
        · subst hkk
          have hb : bucketAt (T.set k1.toNat (T.getD k1.toNat [] ++ [e])) k1 =
              bucketAt T k1 ++ [e] := by
            unfold bucketAt
            exact list_getD_set_self _ _ T k1.toNat hlt
          rw [hb]
          simp [List.append_assoc]
        · have hb : bucketAt (T.set k1.toNat (T.getD k1.toNat [] ++ [e])) k =
              bucketAt T k := by
            unfold bucketAt
            refine list_getD_set_ne _ _ T k1.toNat k.toNat ?_
            omega
          rw [hb]
          have : ¬ (k1 = k) := hkk
          simp [this]

theorem bucketAt_build (v : List (ℚ × ℚ)) (h : ℤ) (k : ℤ) (hk : 0 ≤ k) :
    bucketAt (build_edge_table v h) k =
      (((List.range v.length).filterMap (edgeOf v h)).filter
        (fun p => decide (p.1 = k))).map Prod.snd := by
  have hbase := bucketAt_foldl v h (List.range v.length)
    (List.replicate (h + 1).toNat []) (by simp) k hk
  rw [build_edge_table, hbase]
  have : bucketAt (List.replicate (h + 1).toNat ([] : List Edge)) k = [] := by
    unfold bucketAt
    exact list_getD_replicate _ _ _
  rw [this]
  rfl

end Trab1

namespace Trab1

theorem eAt_zero (e : Edge) : eAt e 0 = e := by
  cases e
  simp [eAt]

theorem advance_eAt (e : Edge) (m : ℕ) : advance (eAt e m) = eAt e (m + 1) := by
  cases e
  simp [advance, eAt]
  ring

theorem iLe_compat (a b : ℕ × Edge) : iLe a b = edgeLe a.2 b.2 := rfl

theorem ibucket_proj (v : List (ℚ × ℚ)) (h : ℤ) (y : ℤ) (hy : 0 ≤ y) :
    (ibucketAt v h y).map Prod.snd = bucketAt (build_edge_table v h) y := by
  rw [bucketAt_build v h y hy]
  unfold ibucketAt
  rw [List.map_filterMap, List.filter_filterMap, List.map_filterMap]
  refine List.filterMap_congr ?_
  intro i _
  rcases hE : edgeOf v h i with _ | p
  · rfl
  · by_cases hk : p.1 = y
    · simp [hE, hk, Option.filter]
    · simp [hE, hk, Option.filter]

theorem iAdvanceAll_proj (A : List (ℕ × Edge)) :
    (iAdvanceAll A).map Prod.snd = advanceAll (A.map Prod.snd) := by
  unfold iAdvanceAll advanceAll
  simp [List.map_map, Function.comp]

theorem iActive_proj (v : List (ℚ × ℚ)) (h : ℤ) (A : List (ℕ × Edge)) (y : ℤ)
    (hy : 0 ≤ y) :
    (iActiveAt v h A y).map Prod.snd =
      activeAt (build_edge_table v h) (A.map Prod.snd) y := by
  unfold iActiveAt activeAt
  rw [map_stableSort edgeLe iLe Prod.snd (fun a b => rfl)]
  rw [← ibucket_proj v h y hy, ← List.map_append, List.filter_map]
  rfl

theorem iAet_proj (v : List (ℚ × ℚ)) (h : ℤ) :
    ∀ y : ℕ, (iAetEnter v h y).map Prod.snd = aetEnter (build_edge_table v h) y ∧
      (iAetAt v h y).map Prod.snd = aetAt (build_edge_table v h) y := by
  intro y
  induction y with
  | zero =>
      constructor
      · rfl
      · unfold iAetAt aetAt
        rw [iActive_proj v h _ _ (by norm_num)]
        rfl
  | succ m ih =>
      have hen : (iAetEnter v h (m + 1)).map Prod.snd =
          aetEnter (build_edge_table v h) (m + 1) := by
        show (iAdvanceAll (iAetAt v h m)).map Prod.snd =
          advanceAll (aetAt (build_edge_table v h) m)
        rw [iAdvanceAll_proj, ih.2]
      refine ⟨hen, ?_⟩
      unfold iAetAt aetAt
      rw [iActive_proj v h _ _ (by positivity), hen]

end Trab1

namespace Trab1

theorem advance_ymax (e : Edge) : (advance e).ymax = e.ymax := rfl

theorem eAt_ymax (e : Edge) (m : ℕ) : (eAt e m).ymax = e.ymax := rfl

theorem activeIdx_step (v : List (ℚ × ℚ)) (h : ℤ) (y : ℤ) :
    ((iAdvanceAll (activeIdx v h y) ++ ibucketAt v h (y + 1)).filter
      (fun q => decide (y + 1 ≤ q.2.ymax))).Perm (activeIdx v h (y + 1)) := by
  rw [List.filter_append]
  unfold iAdvanceAll activeIdx ibucketAt
  rw [List.map_filterMap, List.filter_filterMap, List.filter_filterMap]
  refine (perm_filterMap_append _ _ _ ?_).trans (List.Perm.of_eq (List.filterMap_congr ?_))
  · intro i _
    rcases hE : edgeOf v h i with _ | ⟨k, e⟩
    · left
      simp [hE]
    · by_cases hky : k ≤ y
      · right
        have hne : ¬ (k = y + 1) := by omega
        simp [hE, hne]
      · left
        simp [hE, hky]
  · intro i _
    rcases hE : edgeOf v h i with _ | ⟨k, e⟩
    · simp [hE]
    · by_cases hky : k ≤ y
      · by_cases hym : y + 1 ≤ e.ymax
        · have hym0 : y ≤ e.ymax := by omega
          have hne : ¬ (k = y + 1) := by omega
          have hky1 : k ≤ y + 1 := by omega
          have harith : (y - k).toNat + 1 = (y + 1 - k).toNat := by omega
          simp [hE, Option.filter, hky, hym, hym0, hne, hky1, eAt_ymax,
            advance_ymax, advance_eAt, harith]
        · have hne : ¬ (k = y + 1) := by omega
          by_cases hym0 : y ≤ e.ymax
          · simp [hE, hky, hym0, hne, Option.filter, advance_ymax, eAt_ymax, hym]
          · simp [hE, hky, hym0, hne, Option.filter, advance_ymax, eAt_ymax, hym]
      · by_cases hk1 : k = y + 1
        · subst hk1
          by_cases hym : y + 1 ≤ e.ymax
          · simp [hE, hky, Option.filter, hym, eAt_zero, eAt_ymax]
          · simp [hE, hky, Option.filter, hym, eAt_ymax]
        · have hk2 : ¬ (k ≤ y + 1) := by omega
          simp [hE, hky, hk1, hk2]

theorem iAet_inv (v : List (ℚ × ℚ)) (h : ℤ) :
    ∀ y : ℕ, (iAetAt v h y).Perm (activeIdx v h (y : ℤ)) := by
  intro y
  induction y with
  | zero =>
      unfold iAetAt iActiveAt
      refine (perm_stableSort _ _).trans ?_
      rw [show iAetEnter v h 0 = [] from rfl, List.nil_append]
      unfold ibucketAt activeIdx
      rw [List.filter_filterMap]
      refine List.Perm.of_eq (List.filterMap_congr ?_)
      intro i _
      simp only [Nat.cast_zero]
      rcases hE : edgeOf v h i with _ | ⟨k, e⟩
      · simp
      · obtain ⟨hk0, _, _⟩ := edgeOf_bounds v h i k e hE
        by_cases hk : k = 0
        · subst hk
          by_cases hym : (0:ℤ) ≤ e.ymax
          · simp [Option.filter, hym, eAt_zero]
          · simp [Option.filter, hym]
        · have h1 : ¬ (k ≤ (0:ℤ)) := by omega
          have h2 : ¬ (k = (0:ℤ)) := by omega
          simp [Option.filter, h1, h2]
  | succ m ih =>
      unfold iAetAt
      rw [show iAetEnter v h (m + 1) = iAdvanceAll (iAetAt v h m) from rfl]
      unfold iActiveAt
      refine (perm_stableSort _ _).trans ?_
      have hcast : (((m + 1 : ℕ)) : ℤ) = (m : ℤ) + 1 := by push_cast; ring
      rw [hcast]
      have h1 : (iAdvanceAll (iAetAt v h m)).Perm (iAdvanceAll (activeIdx v h (m : ℤ))) := by
        unfold iAdvanceAll
        exact ih.map _
      have h2 : ((iAdvanceAll (iAetAt v h m) ++ ibucketAt v h ((m : ℤ) + 1)).filter
          (fun q => decide ((m : ℤ) + 1 ≤ q.2.ymax))).Perm
          ((iAdvanceAll (activeIdx v h (m : ℤ)) ++ ibucketAt v h ((m : ℤ) + 1)).filter
          (fun q => decide ((m : ℤ) + 1 ≤ q.2.ymax))) :=
        (h1.append_right _).filter _
      exact h2.trans (activeIdx_step v h (m : ℤ))

end Trab1

namespace Trab1

theorem aetAt_eq_proj (v : List (ℚ × ℚ)) (h : ℤ) (y : ℕ) :
    aetAt (build_edge_table v h) y = (iAetAt v h y).map Prod.snd :=
  (iAet_proj v h y).2.symm

theorem aetAt_length (v : List (ℚ × ℚ)) (h : ℤ) (y : ℕ) :
    (aetAt (build_edge_table v h) y).length = (activeIdx v h (y : ℤ)).length := by
  rw [aetAt_eq_proj, List.length_map]
  exact (iAet_inv v h y).length_eq

theorem dyOf_ne_zero (v : List (ℚ × ℚ)) (i : ℕ)
    (hne : (p1of v i).2 ≠ (p2of v i).2) : dyOf v i ≠ 0 := by
  unfold dyOf
  by_cases hlt : (p1of v i).2 < (p2of v i).2
  · simp only [hlt, if_pos]
    exact sub_ne_zero.mpr (Ne.symm hne)
  · simp only [hlt, if_neg, not_false_iff]
    exact sub_ne_zero.mpr hne

theorem pyRound_ne_imp (v : List (ℚ × ℚ)) (i : ℕ)
    (hr : pyRound (p1of v i).2 ≠ pyRound (p2of v i).2) :
    (p1of v i).2 ≠ (p2of v i).2 := by
  intro hcontra
  exact hr (by rw [hcontra])

end Trab1

/-- C5: build_edge_table never constructs an Edge for a horizontal edge: a
consecutive vertex pair whose y coordinates round to the same integer is
skipped before inv_slope is computed, and whenever the pair is not skipped
the denominator dy of the division dx / dy is nonzero. -/
theorem claim_C5_no_horizontal (v : List (ℚ × ℚ)) (h : ℤ) (i : ℕ) :
    (pyRound (Trab1.p1of v i).2 = pyRound (Trab1.p2of v i).2 →
      Trab1.edgeOf v h i = none) ∧
    (pyRound (Trab1.p1of v i).2 ≠ pyRound (Trab1.p2of v i).2 →
      Trab1.dyOf v i ≠ 0) := by
  constructor
  · intro hr
    rw [Trab1.edgeOf_eq, if_pos hr]
  · intro hr
    exact Trab1.dyOf_ne_zero v i (Trab1.pyRound_ne_imp v i hr)

/-- Witness for C5 at a concrete input: the square of the spec has its bottom
edge skipped, and its right edge has nonzero dy. -/
theorem claim_C5_no_horizontal_witness :
    Trab1.edgeOf [(0,0),(4,0),(4,4),(0,4)] 4 0 = none ∧
    Trab1.dyOf [(0,0),(4,0),(4,4),(0,4)] 1 ≠ 0 := by
  constructor
  · exact (claim_C5_no_horizontal [(0,0),(4,0),(4,4),(0,4)] 4 0).1 (by
      norm_num [Trab1.p1of, Trab1.p2of, pyRound, Int.fract])
  · exact (claim_C5_no_horizontal [(0,0),(4,0),(4,4),(0,4)] 4 1).2 (by
      norm_num [Trab1.p1of, Trab1.p2of, pyRound, Int.fract])

/-- C9: compute_scanline_spans is deterministic and carries no state between
calls: it is a pure function of the vertex list and the height, so two calls
on identical inputs return identical span lists. -/
theorem claim_C9_deterministic (v1 v2 : List (ℚ × ℚ)) (h1 h2 : ℤ)
    (hv : v1 = v2) (hh : h1 = h2) :
    Trab1.compute_scanline_spans v1 h1 = Trab1.compute_scanline_spans v2 h2 := by
  rw [hv, hh]

/-- Witness for C9 at a concrete input. -/
theorem claim_C9_deterministic_witness :
    Trab1.compute_scanline_spans [(0,0),(4,0),(2,4)] 4 =
      Trab1.compute_scanline_spans [(0,0),(4,0),(2,4)] 4 :=
  claim_C9_deterministic [(0,0),(4,0),(2,4)] [(0,0),(4,0),(2,4)] 4 4 rfl rfl

/-- C3: per-edge lifecycle during the sweep.  For every edge produced by
build_edge_table with bucket key k and stored last scanline ymax, the tagged
edge with its creating index is absent from the AET on scanlines before k
(PENDING), present on every scanline y with k ≤ y ≤ ymax (ACTIVE), absent
again for y > ymax (EXPIRED) and never re-enters; moreover the tagged sweep
projects onto the sweep of compute_scanline_spans, so the same lifecycle is
followed there. -/
theorem claim_C3_lifecycle (v : List (ℚ × ℚ)) (h : ℤ) (i : ℕ) (k : ℤ)
    (e : Trab1.Edge) (hi : i < v.length) (hE : Trab1.edgeOf v h i = some (k, e)) :
    (∀ y : ℕ, (∃ w, (i, w) ∈ Trab1.iAetAt v h y) ↔ (k ≤ (y : ℤ) ∧ (y : ℤ) ≤ e.ymax)) ∧
    (∀ y : ℕ, (Trab1.iAetAt v h y).map Prod.snd =
      Trab1.aetAt (Trab1.build_edge_table v h) y) := by
  constructor
  · intro y
    constructor
    · rintro ⟨w, hw⟩
      have hw2 : (i, w) ∈ Trab1.activeIdx v h (y : ℤ) :=
        (Trab1.iAet_inv v h y).mem_iff.mp hw
      rcases List.mem_filterMap.mp hw2 with ⟨j, _, hj⟩
      rcases hEj : Trab1.edgeOf v h j with _ | ⟨k2, e2⟩
      · rw [hEj] at hj
        exact Option.noConfusion hj
      · rw [hEj] at hj
        simp only [Option.some_bind] at hj
        split at hj
        · rename_i hcond
          simp only [Option.some.injEq, Prod.mk.injEq] at hj
          obtain ⟨hji, _⟩ := hj
          subst hji
          rw [hE] at hEj
          simp only [Option.some.injEq, Prod.mk.injEq] at hEj
          obtain ⟨hk, he⟩ := hEj
          subst hk
          subst he
          exact hcond
        · simp at hj
    · rintro ⟨hk1, hk2⟩
      refine ⟨Trab1.eAt e ((y : ℤ) - k).toNat, ?_⟩
      refine (Trab1.iAet_inv v h y).mem_iff.mpr ?_
      refine List.mem_filterMap.mpr ⟨i, List.mem_range.mpr hi, ?_⟩
      rw [hE]
      simp [hk1, hk2]
  · intro y
    exact (Trab1.iAet_proj v h y).2

/-- Witness for C3 at a concrete input: the left edge of the square occupies
the AET exactly on scanlines 0..3. -/
theorem claim_C3_lifecycle_witness :
    (∃ w, (3, w) ∈ Trab1.iAetAt [(0,0),(4,0),(4,4),(0,4)] 4 2) ∧
    ¬ (∃ w, (3, w) ∈ Trab1.iAetAt [(0,0),(4,0),(4,4),(0,4)] 4 4) := by
  have hE : Trab1.edgeOf [(0,0),(4,0),(4,4),(0,4)] 4 3 = some (0, ⟨3, 0, 0⟩) := by
    norm_num [Trab1.edgeOf, pyRound, Int.fract]
  have hmain := claim_C3_lifecycle [(0,0),(4,0),(4,4),(0,4)] 4 3 0 ⟨3, 0, 0⟩
    (by norm_num) hE
  constructor
  · exact (hmain.1 2).mpr (by norm_num)
  · intro hcontra
    have := (hmain.1 4).mp hcontra
    norm_num at this

/-- C2: bucketing contract of build_edge_table.  A vertex pair is turned into
an Edge exactly when it is non-horizontal after rounding and its clipped
scanline range is non-empty and inside [0, height]; the table bucket of every
scanline k then holds exactly the produced edges whose first active scanline
is k, in iteration order, so each produced edge lies in exactly one bucket,
keyed by its y_start; and the stored starting x is the x at y_min adjusted by
inv_slope * (y_start - y_min), which is the intersection of the edge line
with scanline y_start. -/
theorem claim_C2_bucketing (v : List (ℚ × ℚ)) (h : ℤ) :
    (∀ i : ℕ, (pyRound (Trab1.p1of v i).2 ≠ pyRound (Trab1.p2of v i).2 ∧
        0 ≤ Trab1.yStartOf v h i ∧ Trab1.yStartOf v h i ≤ h ∧
        Trab1.yStartOf v h i ≤ Trab1.yEndOf v h i) ↔
      Trab1.edgeOf v h i = some (Trab1.yStartOf v h i,
        { ymax := Trab1.yEndOf v h i, x := Trab1.xIntOf v h i,
          inv_slope := Trab1.invSlopeOf v i })) ∧
    (∀ k : ℤ, 0 ≤ k → Trab1.bucketAt (Trab1.build_edge_table v h) k =
      (((List.range v.length).filterMap (Trab1.edgeOf v h)).filter
        (fun p => decide (p.1 = k))).map Prod.snd) ∧
    (∀ (i : ℕ) (k : ℤ) (e : Trab1.Edge), Trab1.edgeOf v h i = some (k, e) →
      k = Trab1.yStartOf v h i ∧ e.x = Trab1.xIntOf v h i ∧
      (e.x - (Trab1.p1of v i).1) * ((Trab1.p2of v i).2 - (Trab1.p1of v i).2) =
        ((k : ℚ) - (Trab1.p1of v i).2) * ((Trab1.p2of v i).1 - (Trab1.p1of v i).1)) := by
  have hsome : ∀ (i : ℕ) (k : ℤ) (e : Trab1.Edge), Trab1.edgeOf v h i = some (k, e) →
      pyRound (Trab1.p1of v i).2 ≠ pyRound (Trab1.p2of v i).2 ∧
      k = Trab1.yStartOf v h i ∧
      e = (⟨Trab1.yEndOf v h i, Trab1.xIntOf v h i, Trab1.invSlopeOf v i⟩ : Trab1.Edge) ∧
      (0 ≤ Trab1.yStartOf v h i ∧ Trab1.yStartOf v h i ≤ h ∧
        Trab1.yStartOf v h i ≤ Trab1.yEndOf v h i) := by
    intro i k e hE
    rw [Trab1.edgeOf_eq] at hE
    split at hE
    · exact absurd hE (by simp)
    · rename_i hr
      split at hE
      · rename_i hcond
        simp only [Option.some.injEq, Prod.mk.injEq] at hE
        exact ⟨hr, hE.1.symm, hE.2.symm, hcond⟩
      · exact absurd hE (by simp)
  refine ⟨?_, fun k hk => Trab1.bucketAt_build v h k hk, ?_⟩
  · intro i
    constructor
    · rintro ⟨hr, hc⟩
      rw [Trab1.edgeOf_eq, if_neg hr, if_pos hc]
    · intro hE
      obtain ⟨hr, _, _, hc⟩ := hsome i _ _ hE
      exact ⟨hr, hc⟩
  · intro i k e hE
    obtain ⟨hr, hk, he, _⟩ := hsome i k e hE
    have hne := Trab1.pyRound_ne_imp v i hr
    refine ⟨hk, by rw [he], ?_⟩
    subst hk
    subst he
    show (Trab1.xIntOf v h i - (Trab1.p1of v i).1) *
        ((Trab1.p2of v i).2 - (Trab1.p1of v i).2) =
      ((Trab1.yStartOf v h i : ℚ) - (Trab1.p1of v i).2) *
        ((Trab1.p2of v i).1 - (Trab1.p1of v i).1)
    have hdy := Trab1.dyOf_ne_zero v i hne
    unfold Trab1.xIntOf Trab1.invSlopeOf
    rw [if_neg hdy]
    unfold Trab1.dyOf Trab1.dxOf Trab1.xAtYminOf Trab1.yminOf
    by_cases hlt : (Trab1.p1of v i).2 < (Trab1.p2of v i).2
    · simp only [hlt, if_pos, if_true]
      have hd : (Trab1.p2of v i).2 - (Trab1.p1of v i).2 ≠ 0 :=
        sub_ne_zero.mpr (Ne.symm hne)
      field_simp
      ring
    · simp only [hlt, if_neg, if_false, Bool.false_eq_true, not_false_iff]
      have hd : (Trab1.p1of v i).2 - (Trab1.p2of v i).2 ≠ 0 :=
        sub_ne_zero.mpr hne
      field_simp
      ring

/-- Witness for C2 at a concrete input: bucket 0 of the square edge table. -/
theorem claim_C2_bucketing_witness :
    Trab1.bucketAt (Trab1.build_edge_table [(0,0),(4,0),(4,4),(0,4)] 4) 0 =
      ((((List.range (List.length [((0:ℚ),(0:ℚ)),(4,0),(4,4),(0,4)])).filterMap
        (Trab1.edgeOf [(0,0),(4,0),(4,4),(0,4)] 4)).filter
        (fun p => decide (p.1 = 0))).map Prod.snd) :=
  (claim_C2_bucketing [(0,0),(4,0),(4,4),(0,4)] 4).2.1 0 (by norm_num)

namespace Trab1

theorem p1of_pair0 (p q : ℚ × ℚ) : p1of [p, q] 0 = p := rfl

theorem p2of_pair0 (p q : ℚ × ℚ) : p2of [p, q] 0 = q := rfl

theorem p1of_pair1 (p q : ℚ × ℚ) : p1of [p, q] 1 = q := rfl

theorem p2of_pair1 (p q : ℚ × ℚ) : p2of [p, q] 1 = p := by
  simp [p2of]

theorem yminOf_two (p q : ℚ × ℚ) : yminOf [p, q] 0 = yminOf [p, q] 1 := by
  unfold yminOf
  rw [p1of_pair0, p2of_pair0, p1of_pair1, p2of_pair1]
  rcases lt_trichotomy p.2 q.2 with hlt | heq | hgt
  · rw [if_pos hlt, if_neg (not_lt.mpr (le_of_lt hlt))]
  · rw [heq]
  · rw [if_neg (not_lt.mpr (le_of_lt hgt)), if_pos hgt]

theorem ymaxOf_two (p q : ℚ × ℚ) : ymaxOf [p, q] 0 = ymaxOf [p, q] 1 := by
  unfold ymaxOf
  rw [p1of_pair0, p2of_pair0, p1of_pair1, p2of_pair1]
  rcases lt_trichotomy p.2 q.2 with hlt | heq | hgt
  · rw [if_pos hlt, if_neg (not_lt.mpr (le_of_lt hlt))]
  · rw [heq]
  · rw [if_neg (not_lt.mpr (le_of_lt hgt)), if_pos hgt]

theorem xAtYminOf_two (p q : ℚ × ℚ) (hne : p.2 ≠ q.2) :
    xAtYminOf [p, q] 0 = xAtYminOf [p, q] 1 := by
  unfold xAtYminOf
  rw [p1of_pair0, p2of_pair0, p1of_pair1, p2of_pair1]
  rcases lt_trichotomy p.2 q.2 with hlt | heq | hgt
  · rw [if_pos hlt, if_neg (not_lt.mpr (le_of_lt hlt))]
  · exact absurd heq hne
  · rw [if_neg (not_lt.mpr (le_of_lt hgt)), if_pos hgt]

theorem dyOf_two (p q : ℚ × ℚ) (hne : p.2 ≠ q.2) :
    dyOf [p, q] 0 = dyOf [p, q] 1 := by
  unfold dyOf
  rw [p1of_pair0, p2of_pair0, p1of_pair1, p2of_pair1]
  rcases lt_trichotomy p.2 q.2 with hlt | heq | hgt
  · rw [if_pos hlt, if_neg (not_lt.mpr (le_of_lt hlt))]
  · exact absurd heq hne
  · rw [if_neg (not_lt.mpr (le_of_lt hgt)), if_pos hgt]

theorem dxOf_two (p q : ℚ × ℚ) (hne : p.2 ≠ q.2) :
    dxOf [p, q] 0 = dxOf [p, q] 1 := by
  unfold dxOf
  rw [p1of_pair0, p2of_pair0, p1of_pair1, p2of_pair1]
  rcases lt_trichotomy p.2 q.2 with hlt | heq | hgt
  · rw [if_pos hlt, if_neg (not_lt.mpr (le_of_lt hlt))]
  · exact absurd heq hne
  · rw [if_neg (not_lt.mpr (le_of_lt hgt)), if_pos hgt]

theorem invSlopeOf_two (p q : ℚ × ℚ) (hne : p.2 ≠ q.2) :
    invSlopeOf [p, q] 0 = invSlopeOf [p, q] 1 := by
  unfold invSlopeOf
  rw [dyOf_two p q hne, dxOf_two p q hne]

theorem yStartOf_two (p q : ℚ × ℚ) (h : ℤ) :
    yStartOf [p, q] h 0 = yStartOf [p, q] h 1 := by
  unfold yStartOf
  rw [yminOf_two]

theorem yEndOf_two (p q : ℚ × ℚ) (h : ℤ) :
    yEndOf [p, q] h 0 = yEndOf [p, q] h 1 := by
  unfold yEndOf
  rw [ymaxOf_two]

theorem xIntOf_two (p q : ℚ × ℚ) (h : ℤ) (hne : p.2 ≠ q.2) :
    xIntOf [p, q] h 0 = xIntOf [p, q] h 1 := by
  unfold xIntOf
  rw [dyOf_two p q hne, xAtYminOf_two p q hne, invSlopeOf_two p q hne,
    yStartOf_two p q h, yminOf_two]

theorem edgeOf_two (p q : ℚ × ℚ) (h : ℤ) :
    edgeOf [p, q] h 0 = edgeOf [p, q] h 1 := by
  by_cases hr : pyRound p.2 = pyRound q.2
  · have c0 : pyRound (p1of [p, q] 0).2 = pyRound (p2of [p, q] 0).2 := by
      rw [p1of_pair0, p2of_pair0]
      exact hr
    have c1 : pyRound (p1of [p, q] 1).2 = pyRound (p2of [p, q] 1).2 := by
      rw [p1of_pair1, p2of_pair1]
      exact hr.symm
    rw [edgeOf_eq, edgeOf_eq, if_pos c0, if_pos c1]
  · have hne : p.2 ≠ q.2 := fun hh => hr (by rw [hh])
    have c0 : ¬ pyRound (p1of [p, q] 0).2 = pyRound (p2of [p, q] 0).2 := by
      rw [p1of_pair0, p2of_pair0]
      exact hr
    have c1 : ¬ pyRound (p1of [p, q] 1).2 = pyRound (p2of [p, q] 1).2 := by
      rw [p1of_pair1, p2of_pair1]
      exact fun hh => hr (Eq.symm hh)
    rw [edgeOf_eq, edgeOf_eq, if_neg c0, if_neg c1, yStartOf_two p q h,
      yEndOf_two p q h, xIntOf_two p q h hne, invSlopeOf_two p q hne]

theorem activeIdx_two (p q : ℚ × ℚ) (h : ℤ) (y : ℤ) (k : ℤ) (e : Edge)
    (hE : edgeOf [p, q] h 0 = some (k, e)) :
    activeIdx [p, q] h y =
      if k ≤ y ∧ y ≤ e.ymax then
        [(0, eAt e (y - k).toNat), (1, eAt e (y - k).toNat)] else [] := by
  have hE1 : edgeOf [p, q] h 1 = some (k, e) := by
    rw [← edgeOf_two]
    exact hE
  unfold activeIdx
  rw [show List.range (List.length [p, q]) = [0, 1] from rfl]
  by_cases hc : k ≤ y ∧ y ≤ e.ymax
  · simp [hE, hE1, hc]
  · simp [hE, hE1, hc]

end Trab1

theorem perm_pair_eq {α : Type} (l : List α) (a : α) (hp : l.Perm [a, a]) :
    l = [a, a] := by
  have hlen : l.length = 2 := by simpa using hp.length_eq
  have hmem : ∀ x ∈ l, x = a := by
    intro x hx
    have := hp.mem_iff.mp hx
    simpa using this
  cases l with
  | nil => simp at hlen
  | cons x t =>
      cases t with
      | nil => simp at hlen
      | cons z t2 =>
          cases t2 with
          | nil => rw [hmem x (by simp), hmem z (by simp)]
          | cons w t3 => simp at hlen

namespace Trab1

theorem emitAt_pair_same (y : ℤ) (w : Edge) : emitAt y [w, w] = [] := by
  norm_num [emitAt, pairs, eps]

theorem spansUpTo_nil (ET : List (List Edge))
    (hemp : ∀ y : ℕ, emitAt (y : ℤ) (aetAt ET y) = []) :
    ∀ m : ℕ, spansUpTo ET m = [] := by
  intro m
  induction m with
  | zero => rfl
  | succ k ih =>
      show spansUpTo ET k ++ emitAt (k : ℤ) (aetAt ET k) = []
      rw [ih, hemp k]
      rfl

theorem aetAt_nil_of_activeIdx (v : List (ℚ × ℚ)) (h : ℤ) (y : ℕ)
    (hA : activeIdx v h (y : ℤ) = []) :
    aetAt (build_edge_table v h) y = [] := by
  have hl := aetAt_length v h y
  rw [hA] at hl
  exact List.length_eq_zero.mp (by simpa using hl)

theorem aetAt_pair_of (v : List (ℚ × ℚ)) (h : ℤ) (y : ℕ) (w : Edge)
    (hA : activeIdx v h (y : ℤ) = [(0, w), (1, w)]) :
    aetAt (build_edge_table v h) y = [w, w] := by
  have hperm := (iAet_inv v h y).map Prod.snd
  rw [hA] at hperm
  rw [aetAt_eq_proj]
  exact perm_pair_eq _ w (by simpa using hperm)

end Trab1

/-- C4 amended: a vertex list with fewer than 3 vertices yields the empty
span list for every height, and a strictly negative height yields the empty
span list for every vertex list.  (At height exactly zero the code can still
emit the scanline-0 spans, see the counterexample.) -/
theorem claim_C4_amended (v : List (ℚ × ℚ)) (h : ℤ) :
    (v.length < 3 → Trab1.compute_scanline_spans v h = []) ∧
    (h < 0 → Trab1.compute_scanline_spans v h = []) := by
  constructor
  · intro hlen
    unfold Trab1.compute_scanline_spans
    refine Trab1.spansUpTo_nil _ ?_ _
    intro y
    rcases v with _ | ⟨p, t⟩
    · rw [Trab1.aetAt_nil_of_activeIdx [] h y rfl]
      rfl
    rcases t with _ | ⟨q, t2⟩
    · have hE : Trab1.edgeOf [p] h 0 = none := by
        rw [Trab1.edgeOf_eq]
        simp [Trab1.p1of, Trab1.p2of]
      have hA : Trab1.activeIdx [p] h (y : ℤ) = [] := by
        unfold Trab1.activeIdx
        rw [show List.range (List.length [p]) = [0] from rfl]
        simp [hE]
      rw [Trab1.aetAt_nil_of_activeIdx [p] h y hA]
      rfl
    rcases t2 with _ | ⟨r, t3⟩
    · rcases hE : Trab1.edgeOf [p, q] h 0 with _ | ⟨k, e⟩
      · have hE1 : Trab1.edgeOf [p, q] h 1 = none := by
          rw [← Trab1.edgeOf_two]
          exact hE
        have hA : Trab1.activeIdx [p, q] h (y : ℤ) = [] := by
          unfold Trab1.activeIdx
          rw [show List.range (List.length [p, q]) = [0, 1] from rfl]
          simp [hE, hE1]
        rw [Trab1.aetAt_nil_of_activeIdx [p, q] h y hA]
        rfl
      · have hAI := Trab1.activeIdx_two p q h (y : ℤ) k e hE
        by_cases hc : k ≤ (y : ℤ) ∧ (y : ℤ) ≤ e.ymax
        · rw [if_pos hc] at hAI
          rw [Trab1.aetAt_pair_of [p, q] h y _ hAI]
          exact Trab1.emitAt_pair_same _ _
        · rw [if_neg hc] at hAI
          rw [Trab1.aetAt_nil_of_activeIdx [p, q] h y hAI]
          rfl
    · exfalso
      simp at hlen
      omega
  · intro hneg
    unfold Trab1.compute_scanline_spans
    rw [show (h + 1).toNat = 0 by omega]
    rfl

/-- Witness for C4 amended at concrete inputs: a 1-vertex polygon at height 5
and a triangle at height -1 both yield no spans. -/
theorem claim_C4_amended_witness :
    Trab1.compute_scanline_spans [(2,3)] 5 = [] ∧
    Trab1.compute_scanline_spans [(0,0),(4,0),(2,4)] (-1) = [] :=
  ⟨(claim_C4_amended [(2,3)] 5).1 (by norm_num),
   (claim_C4_amended [(0,0),(4,0),(2,4)] (-1)).2 (by norm_num)⟩

namespace Trab1

theorem pairs_eq_specPairs : (A : List Edge) → pairs A = specPairs A
  | [] => rfl
  | [_] => rfl
  | e1 :: e2 :: rest => by
      show (if e1.x > e2.x then (e2.x, e1.x) else (e1.x, e2.x)) :: pairs rest =
        (min e1.x e2.x, max e1.x e2.x) :: specPairs rest
      rw [pairs_eq_specPairs rest]
      congr 1
      by_cases hx : e1.x > e2.x
      · rw [if_pos hx, min_eq_right (le_of_lt hx), max_eq_left (le_of_lt hx)]
      · have hle : e1.x ≤ e2.x := not_lt.mp hx
        rw [if_neg hx, min_eq_left hle, max_eq_right hle]

theorem aetAt_eq_sort_raw (ET : List (List Edge)) (y : ℕ) :
    aetAt ET y = stableSort edgeLe (aetRawAt ET y) := rfl

theorem emit_eq_spec (ET : List (List Edge)) (y : ℕ) :
    emitAt (y : ℤ) (aetAt ET y) = specEmitAt (y : ℤ) (aetRawAt ET y) := by
  rw [aetAt_eq_sort_raw]
  unfold emitAt specEmitAt
  rw [pairs_eq_specPairs]

theorem spansAtScanline_append (a b : List (ℤ × ℚ × ℚ)) (y : ℤ) :
    spansAtScanline (a ++ b) y = spansAtScanline a y ++ spansAtScanline b y := by
  simp [spansAtScanline]

theorem spansAt_emit (z z1 : ℤ) (A : List Edge) :
    spansAtScanline (emitAt z A) z1 = if z = z1 then emitAt z A else [] := by
  unfold spansAtScanline emitAt
  rw [List.filter_map]
  by_cases hzz : z = z1
  · subst hzz
    simp
  · simp [hzz]

theorem spansAt_spansUpTo (ET : List (List Edge)) :
    ∀ (m : ℕ) (y : ℕ), spansAtScanline (spansUpTo ET m) (y : ℤ) =
      if y < m then emitAt (y : ℤ) (aetAt ET y) else [] := by
  intro m
  induction m with
  | zero =>
      intro y
      simp [spansUpTo, spansAtScanline]
  | succ k ih =>
      intro y
      show spansAtScanline (spansUpTo ET k ++ emitAt (k : ℤ) (aetAt ET k)) (y : ℤ) = _
      rw [spansAtScanline_append, ih y, spansAt_emit]
      rcases lt_trichotomy y k with hlt | heq | hgt
      · have h1 : y < k + 1 := by omega
        have h2 : ¬ ((k : ℤ) = (y : ℤ)) := by
          intro hc
          omega
        rw [if_pos hlt, if_neg h2, if_pos h1, List.append_nil]
      · subst heq
        have h1 : ¬ (y < y) := lt_irrefl y
        have h2 : y < y + 1 := by omega
        rw [if_neg h1, if_pos rfl, if_pos h2, List.nil_append]
      · have h1 : ¬ (y < k) := by omega
        have h2 : ¬ ((k : ℤ) = (y : ℤ)) := by
          intro hc
          omega
        have h3 : ¬ (y < k + 1) := by omega
        rw [if_neg h1, if_neg h2, if_neg h3, List.append_nil]

end Trab1

/-- C1: the per-scanline emission contract.  For every vertex list, height
and scanline y with 0 ≤ y ≤ height, the spans of scanline y in the output of
compute_scanline_spans are exactly those obtained from the active edge table
of that scanline by sorting by current x ascending with ties broken by
inv_slope ascending, pairing consecutive entries into (y, min x, max x)
while dropping an odd trailing edge, and keeping only spans wider than
1e-6. -/
theorem claim_C1_emission (v : List (ℚ × ℚ)) (h : ℤ) (y : ℕ) (hy : (y : ℤ) ≤ h) :
    Trab1.spansAtScanline (Trab1.compute_scanline_spans v h) (y : ℤ) =
      Trab1.specEmitAt (y : ℤ) (Trab1.aetRawAt (Trab1.build_edge_table v h) y) := by
  unfold Trab1.compute_scanline_spans
  rw [Trab1.spansAt_spansUpTo, if_pos (by omega), Trab1.emit_eq_spec]

/-- Witness for C1 at a concrete input: scanline 2 of the square. -/
theorem claim_C1_emission_witness :
    Trab1.spansAtScanline
        (Trab1.compute_scanline_spans [(0,0),(4,0),(4,4),(0,4)] 4) ((2 : ℕ) : ℤ) =
      Trab1.specEmitAt ((2 : ℕ) : ℤ)
        (Trab1.aetRawAt (Trab1.build_edge_table [(0,0),(4,0),(4,4),(0,4)] 4) 2) :=
  claim_C1_emission [(0,0),(4,0),(4,4),(0,4)] 4 2 (by norm_num)

/-- C4 counterexample: at height exactly 0 the triangle (0,0),(4,0),(2,4)
yields the span (0, 0, 4), not the empty list, so zero height is not treated
as "no fill". -/
theorem claim_C4_counterexample :
    Trab1.compute_scanline_spans [(0,0),(4,0),(2,4)] 0 = [(0,0,4)] ∧
    Trab1.compute_scanline_spans [(0,0),(4,0),(2,4)] 0 ≠ [] := by
  have hE0 : Trab1.edgeOf [(0,0),(4,0),(2,4)] 0 0 = none := by
    norm_num [Trab1.edgeOf, pyRound, Int.fract]
  have hE1 : Trab1.edgeOf [(0,0),(4,0),(2,4)] 0 1 = some (0, ⟨0, 4, -(1/2)⟩) := by
    norm_num [Trab1.edgeOf, pyRound, Int.fract]
  have hE2 : Trab1.edgeOf [(0,0),(4,0),(2,4)] 0 2 = some (0, ⟨0, 0, 1/2⟩) := by
    norm_num [Trab1.edgeOf, pyRound, Int.fract]
  have hET : Trab1.build_edge_table [(0,0),(4,0),(2,4)] 0 =
      [[⟨0, 4, -(1/2)⟩, ⟨0, 0, 1/2⟩]] := by
    rw [Trab1.build_edge_table]
    rw [show List.range (List.length [((0:ℚ),(0:ℚ)),(4,0),(2,4)]) = [0,1,2] from rfl]
    simp only [List.foldl_cons, List.foldl_nil, hE0, hE1, hE2]
    rfl
  have hA0 : Trab1.aetAt [[⟨0, 4, -(1/2)⟩, ⟨0, 0, 1/2⟩]] 0 =
      [⟨0, 0, 1/2⟩, ⟨0, 4, -(1/2)⟩] := by
    rw [Trab1.aetAt, Trab1.aetEnter, Trab1.activeAt, Trab1.bucketAt]
    norm_num [stableSort, insertLe, Trab1.edgeLe, List.filter]
  constructor
  · rw [Trab1.compute_scanline_spans, hET, show ((0:ℤ) + 1).toNat = 1 by simp]
    show Trab1.spansUpTo [[⟨0, 4, -(1/2)⟩, ⟨0, 0, 1/2⟩]] 0 ++
      Trab1.emitAt ((0:ℕ) : ℤ) (Trab1.aetAt [[⟨0, 4, -(1/2)⟩, ⟨0, 0, 1/2⟩]] 0) = _
    rw [hA0]
    norm_num [Trab1.spansUpTo, Trab1.emitAt, Trab1.pairs, Trab1.eps]
  · rw [Trab1.compute_scanline_spans, hET, show ((0:ℤ) + 1).toNat = 1 by simp]
    show Trab1.spansUpTo [[⟨0, 4, -(1/2)⟩, ⟨0, 0, 1/2⟩]] 0 ++
      Trab1.emitAt ((0:ℕ) : ℤ) (Trab1.aetAt [[⟨0, 4, -(1/2)⟩, ⟨0, 0, 1/2⟩]] 0) ≠ []
    rw [hA0]
    norm_num [Trab1.spansUpTo, Trab1.emitAt, Trab1.pairs, Trab1.eps]

theorem aetEnter_succ (ET : List (List Trab1.Edge)) (y : ℕ) :
    Trab1.aetEnter ET (y + 1) = Trab1.advanceAll (Trab1.aetAt ET y) := rfl

/-- C6: the square with vertices (0,0),(4,0),(4,4),(0,4) at height 4 yields
exactly one span per scanline y = 0,1,2,3, each equal to (y, 0, 4), and
nothing at scanline 4. -/
theorem claim_C6_square : Trab1.compute_scanline_spans [(0,0),(4,0),(4,4),(0,4)] 4 =
    [(0,0,4),(1,0,4),(2,0,4),(3,0,4)] := by
  have hE0 : Trab1.edgeOf [(0,0),(4,0),(4,4),(0,4)] 4 0 = none := by
    norm_num [Trab1.edgeOf, pyRound, Int.fract]
  have hE1 : Trab1.edgeOf [(0,0),(4,0),(4,4),(0,4)] 4 1 = some (0, ⟨3, 4, 0⟩) := by
    norm_num [Trab1.edgeOf, pyRound, Int.fract]
  have hE2 : Trab1.edgeOf [(0,0),(4,0),(4,4),(0,4)] 4 2 = none := by
    norm_num [Trab1.edgeOf, pyRound, Int.fract]
  have hE3 : Trab1.edgeOf [(0,0),(4,0),(4,4),(0,4)] 4 3 = some (0, ⟨3, 0, 0⟩) := by
    norm_num [Trab1.edgeOf, pyRound, Int.fract]
  have hET : Trab1.build_edge_table [(0,0),(4,0),(4,4),(0,4)] 4 =
      [[⟨3, 4, 0⟩, ⟨3, 0, 0⟩], [], [], [], []] := by
    rw [Trab1.build_edge_table]
    rw [show List.range (List.length [((0:ℚ),(0:ℚ)),(4,0),(4,4),(0,4)]) = [0,1,2,3] from rfl]
    simp only [List.foldl_cons, List.foldl_nil, hE0, hE1, hE2, hE3]
    rfl
  have hA0 : Trab1.aetAt [[⟨3, 4, 0⟩, ⟨3, 0, 0⟩], [], [], [], []] 0 =
      [⟨3, 0, 0⟩, ⟨3, 4, 0⟩] := by
    rw [Trab1.aetAt, Trab1.aetEnter, Trab1.activeAt, Trab1.bucketAt]
    norm_num [stableSort, insertLe, Trab1.edgeLe, List.filter]
  have hA1 : Trab1.aetAt [[⟨3, 4, 0⟩, ⟨3, 0, 0⟩], [], [], [], []] 1 =
      [⟨3, 0, 0⟩, ⟨3, 4, 0⟩] := by
    rw [Trab1.aetAt, aetEnter_succ, hA0, Trab1.activeAt, Trab1.bucketAt]
    norm_num [stableSort, insertLe, Trab1.edgeLe, List.filter,
      Trab1.advanceAll, Trab1.advance]
  have hA2 : Trab1.aetAt [[⟨3, 4, 0⟩, ⟨3, 0, 0⟩], [], [], [], []] 2 =
      [⟨3, 0, 0⟩, ⟨3, 4, 0⟩] := by
    rw [Trab1.aetAt, aetEnter_succ, hA1, Trab1.activeAt, Trab1.bucketAt]
    norm_num [stableSort, insertLe, Trab1.edgeLe, List.filter,
      Trab1.advanceAll, Trab1.advance]
  have hA3 : Trab1.aetAt [[⟨3, 4, 0⟩, ⟨3, 0, 0⟩], [], [], [], []] 3 =
      [⟨3, 0, 0⟩, ⟨3, 4, 0⟩] := by
    rw [Trab1.aetAt, aetEnter_succ, hA2, Trab1.activeAt, Trab1.bucketAt]
    norm_num [stableSort, insertLe, Trab1.edgeLe, List.filter,
      Trab1.advanceAll, Trab1.advance]
  have hA4 : Trab1.aetAt [[⟨3, 4, 0⟩, ⟨3, 0, 0⟩], [], [], [], []] 4 = [] := by
    rw [Trab1.aetAt, aetEnter_succ, hA3, Trab1.activeAt, Trab1.bucketAt]
    norm_num [stableSort, insertLe, Trab1.edgeLe, List.filter,
      Trab1.advanceAll, Trab1.advance]
  rw [Trab1.compute_scanline_spans, hET,
    show ((4:ℤ) + 1).toNat = 5 by simp]
  simp only [Trab1.spansUpTo, hA0, hA1, hA2, hA3, hA4]
  norm_num [Trab1.emitAt, Trab1.pairs, Trab1.eps]

theorem length_filterMap_countP {α β : Type} (f : α → Option β) :
    ∀ l : List α, (l.filterMap f).length = l.countP (fun a => (f a).isSome) := by
  intro l
  induction l with
  | nil => rfl
  | cons a t ih =>
      rcases hfa : f a with _ | b
      · rw [List.filterMap_cons_none hfa, ih, List.countP_cons]
        simp [hfa]
      · rw [List.filterMap_cons_some hfa, List.length_cons, ih, List.countP_cons]
        simp [hfa]

theorem sum_map_add_zmod (l : List ℕ) (f g : ℕ → ZMod 2) :
    (l.map (fun i => f i + g i)).sum = (l.map f).sum + (l.map g).sum := by
  induction l with
  | nil => simp
  | cons a t ih =>
      simp only [List.map_cons, List.sum_cons, ih]
      ring

theorem countP_cast_zmod (p : ℕ → Bool) :
    ∀ l : List ℕ, ((l.countP p : ℕ) : ZMod 2) =
      (l.map (fun i => if p i then (1 : ZMod 2) else 0)).sum := by
  intro l
  induction l with
  | nil => simp
  | cons a t ih =>
      rw [List.countP_cons]
      by_cases hpa : p a
      · simp [hpa, ih]
        ring
      · simp [hpa, ih]

theorem sum_reindex_cyclic (m : ℕ) (F : ℕ → ZMod 2) :
    ((List.range (m + 1)).map (fun i => F ((i + 1) % (m + 1)))).sum =
      ((List.range (m + 1)).map F).sum := by
  have h1 : List.range (m + 1) = List.range m ++ [m] := List.range_succ m
  have hcongr : (List.range m).map (fun i => F ((i + 1) % (m + 1))) =
      (List.range m).map (fun i => F (i + 1)) := by
    refine List.map_congr_left ?_
    intro i hi
    have : i < m := List.mem_range.mp hi
    rw [Nat.mod_eq_of_lt (by omega)]
  calc ((List.range (m + 1)).map (fun i => F ((i + 1) % (m + 1)))).sum
      = ((List.range m).map (fun i => F ((i + 1) % (m + 1)))).sum +
          F ((m + 1) % (m + 1)) := by
        rw [h1]
        simp
    _ = ((List.range m).map (fun i => F (i + 1))).sum + F 0 := by
        rw [hcongr, Nat.mod_self]
    _ = F 0 + (((List.range m).map Nat.succ).map F).sum := by
        rw [List.map_map]
        exact add_comm _ _
    _ = ((0 :: (List.range m).map Nat.succ).map F).sum := by
        simp
    _ = ((List.range (m + 1)).map F).sum := by
        rw [← List.range_succ_eq_map]

theorem even_countP_cyclic (n : ℕ) (B : ℕ → Bool) :
    Even ((List.range n).countP (fun i => B i != B ((i + 1) % n))) := by
  cases n with
  | zero => simp
  | succ m =>
      rw [Nat.even_iff, ← Nat.dvd_iff_mod_eq_zero,
        ← ZMod.natCast_zmod_eq_zero_iff_dvd]
      rw [countP_cast_zmod]
      have hsplit : (List.range (m + 1)).map
          (fun i => if (B i != B ((i + 1) % (m + 1))) then (1 : ZMod 2) else 0) =
        (List.range (m + 1)).map (fun i =>
          (if B i then (1 : ZMod 2) else 0) +
          (if B ((i + 1) % (m + 1)) then (1 : ZMod 2) else 0)) := by
        refine List.map_congr_left ?_
        intro i _
        cases hB1 : B i <;> cases hB2 : B ((i + 1) % (m + 1)) <;>
          simp [hB1, hB2] <;> decide
      rw [hsplit, sum_map_add_zmod]
      have hre := sum_reindex_cyclic m (fun j => if B j then (1 : ZMod 2) else 0)
      rw [hre]
      have : ∀ z : ZMod 2, z + z = 0 := by decide
      exact this _

namespace Trab1

theorem edgeOf_int (v : List (ℚ × ℚ)) (h : ℤ) (i : ℕ) (a b : ℤ)
    (hy1 : (p1of v i).2 = (a : ℚ)) (hy2 : (p2of v i).2 = (b : ℚ))
    (ha : 0 ≤ a) (hb : 0 ≤ b) (hah : a ≤ h) (hbh : b ≤ h) (hne : a ≠ b) :
    edgeOf v h i = some (min a b,
      ⟨max a b - 1, xAtYminOf v i, invSlopeOf v i⟩) := by
  have hyne : (p1of v i).2 ≠ (p2of v i).2 := by
    rw [hy1, hy2]
    exact_mod_cast hne
  have hr : pyRound (p1of v i).2 ≠ pyRound (p2of v i).2 := by
    rw [hy1, hy2, pyRound_intCast, pyRound_intCast]
    exact hne
  have hmin : yminOf v i = ((min a b : ℤ) : ℚ) := by
    unfold yminOf
    rw [hy1, hy2]
    by_cases hab : (a : ℚ) < (b : ℚ)
    · rw [if_pos hab, min_eq_left (le_of_lt (show a < b by exact_mod_cast hab))]
    · rw [if_neg hab, min_eq_right (show b ≤ a by exact_mod_cast (not_lt.mp hab))]
  have hmax : ymaxOf v i = ((max a b : ℤ) : ℚ) := by
    unfold ymaxOf
    rw [hy1, hy2]
    by_cases hab : (a : ℚ) < (b : ℚ)
    · rw [if_pos hab, max_eq_right (le_of_lt (show a < b by exact_mod_cast hab))]
    · rw [if_neg hab, max_eq_left (show b ≤ a by exact_mod_cast (not_lt.mp hab))]
  have hys : yStartOf v h i = min a b := by
    unfold yStartOf
    rw [hmin]
    have h1 : ((min a b : ℤ) : ℚ) ≤ (h : ℚ) := by
      exact_mod_cast (show min a b ≤ h by omega)
    rw [min_eq_left h1, pyRound_intCast]
    omega
  have hye : yEndOf v h i = max a b - 1 := by
    unfold yEndOf
    rw [hmax]
    have h0 : max (0 : ℚ) ((max a b : ℤ) : ℚ) = ((max a b : ℤ) : ℚ) :=
      max_eq_right (by exact_mod_cast (show (0 : ℤ) ≤ max a b by omega))
    rw [h0, show ((max a b : ℤ) : ℚ) - 1 = ((max a b - 1 : ℤ) : ℚ) by push_cast; ring,
      pyRound_intCast]
    omega
  have hguard : 0 ≤ yStartOf v h i ∧ yStartOf v h i ≤ h ∧
      yStartOf v h i ≤ yEndOf v h i := by
    rw [hys, hye]
    refine ⟨by omega, by omega, by omega⟩
  have hxint : xIntOf v h i = xAtYminOf v i := by
    unfold xIntOf
    rw [if_neg (dyOf_ne_zero v i hyne), hys, hmin]
    push_cast
    ring
  rw [edgeOf_eq, if_neg hr, if_pos hguard, hys, hye, hxint]

end Trab1

/-- C7 amended: the claimed parity fails in general for fractional vertex
coordinates (see the counterexample), but holds for every polygon whose
vertex y coordinates are integers within [0, height]: at every scanline the
AET after activation and deactivation has even length; simplicity of the
polygon is not needed. -/
theorem claim_C7_amended_parity (v : List (ℚ × ℚ)) (h : ℤ)
    (H : ∀ p ∈ v, ∃ m : ℤ, p.2 = (m : ℚ) ∧ 0 ≤ m ∧ m ≤ h) (y : ℕ) :
    Even (Trab1.aetAt (Trab1.build_edge_table v h) y).length := by
  rw [Trab1.aetAt_length]
  unfold Trab1.activeIdx
  rw [length_filterMap_countP]
  have hpoint : ∀ i ∈ List.range v.length,
      (((Trab1.edgeOf v h i).bind (fun p =>
        if p.1 ≤ (y : ℤ) ∧ (y : ℤ) ≤ p.2.ymax then
          some (i, Trab1.eAt p.2 (((y : ℤ)) - p.1).toNat) else none)).isSome) ↔
      ((decide ((v.getD i (0, 0)).2 ≤ ((y : ℤ) : ℚ)) !=
        decide ((v.getD ((i + 1) % v.length) (0, 0)).2 ≤ ((y : ℤ) : ℚ))) = true) := by
    intro i hi
    have hin : i < v.length := List.mem_range.mp hi
    have hn0 : 0 < v.length := by omega
    have hj : (i + 1) % v.length < v.length := Nat.mod_lt _ hn0
    have hm1 : v.getD i (0, 0) ∈ v := by
      rw [List.getD_eq_getElem v (0, 0) hin]
      exact List.getElem_mem hin
    have hm2 : v.getD ((i + 1) % v.length) (0, 0) ∈ v := by
      rw [List.getD_eq_getElem v (0, 0) hj]
      exact List.getElem_mem hj
    obtain ⟨a, hay, ha0, hah⟩ := H _ hm1
    obtain ⟨b, hby, hb0, hbh⟩ := H _ hm2
    have hp1 : (Trab1.p1of v i).2 = (a : ℚ) := hay
    have hp2 : (Trab1.p2of v i).2 = (b : ℚ) := hby
    by_cases hab : a = b
    · subst hab
      have hEnone : Trab1.edgeOf v h i = none := by
        rw [Trab1.edgeOf_eq, if_pos (by rw [hp1, hp2])]
      rw [hEnone, hay, hby]
      simp
    · have hE := Trab1.edgeOf_int v h i a b hp1 hp2 ha0 hb0 hah hbh hab
      rw [hE, hay, hby]
      simp only [Option.some_bind]
      by_cases hya : a ≤ (y : ℤ)
      · have hA : (a : ℚ) ≤ ((y : ℕ) : ℚ) := by exact_mod_cast hya
        by_cases hyb : b ≤ (y : ℤ)
        · have hc : ¬ (min a b ≤ (y : ℤ) ∧ (y : ℤ) ≤ max a b - 1) := by omega
          have hB2 : (b : ℚ) ≤ ((y : ℕ) : ℚ) := by exact_mod_cast hyb
          rw [if_neg hc]
          simp [hA, hB2]
        · have hc : min a b ≤ (y : ℤ) ∧ (y : ℤ) ≤ max a b - 1 := by omega
          have hB2 : ¬ ((b : ℚ) ≤ ((y : ℕ) : ℚ)) := by
            intro hcon
            exact hyb (by exact_mod_cast hcon)
          rw [if_pos hc]
          simp [hA, hB2]
      · have hA : ¬ ((a : ℚ) ≤ ((y : ℕ) : ℚ)) := by
          intro hcon
          exact hya (by exact_mod_cast hcon)
        by_cases hyb : b ≤ (y : ℤ)
        · have hc : min a b ≤ (y : ℤ) ∧ (y : ℤ) ≤ max a b - 1 := by omega
          have hB2 : (b : ℚ) ≤ ((y : ℕ) : ℚ) := by exact_mod_cast hyb
          rw [if_pos hc]
          simp [hA, hB2]
        · have hc : ¬ (min a b ≤ (y : ℤ) ∧ (y : ℤ) ≤ max a b - 1) := by omega
          have hB2 : ¬ ((b : ℚ) ≤ ((y : ℕ) : ℚ)) := by
            intro hcon
            exact hyb (by exact_mod_cast hcon)
          rw [if_neg hc]
          simp [hA, hB2]
  rw [List.countP_congr hpoint]
  exact even_countP_cyclic v.length
    (fun j => decide ((v.getD j (0, 0)).2 ≤ ((y : ℤ) : ℚ)))

/-- Witness for C7 amended at a concrete input: the square at scanline 2 has
an AET of even length. -/
theorem claim_C7_amended_parity_witness :
    Even (Trab1.aetAt (Trab1.build_edge_table [(0,0),(4,0),(4,4),(0,4)] 4) 2).length :=
  claim_C7_amended_parity [(0,0),(4,0),(4,4),(0,4)] 4 (by
    intro p hp
    simp only [List.mem_cons, List.not_mem_nil, or_false] at hp
    rcases hp with rfl | rfl | rfl | rfl
    · exact ⟨0, by norm_num⟩
    · exact ⟨0, by norm_num⟩
    · exact ⟨4, by norm_num⟩
    · exact ⟨4, by norm_num⟩) 2

/-- C7 counterexample: the simple triangle (0,0),(6,5/2),(0,5) at height 5,
whose edges all meet the scanline range, has an AET of odd length 3 at
scanline 2, because banker rounding makes the edge ending at y = 5/2 stay
active on scanline 2 while the edge starting there is activated on the same
scanline. -/
theorem claim_C7_counterexample :
    ¬ Even (Trab1.aetAt
      (Trab1.build_edge_table [(0,0),(6,5/2),(0,5)] 5) 2).length := by
  have hE0 : Trab1.edgeOf [(0,0),(6,5/2),(0,5)] 5 0 = some (0, ⟨2, 0, 12/5⟩) := by
    norm_num [Trab1.edgeOf, pyRound, Int.fract]
  have hE1 : Trab1.edgeOf [(0,0),(6,5/2),(0,5)] 5 1 = some (2, ⟨4, 36/5, -(12/5)⟩) := by
    norm_num [Trab1.edgeOf, pyRound, Int.fract]
  have hE2 : Trab1.edgeOf [(0,0),(6,5/2),(0,5)] 5 2 = some (0, ⟨4, 0, 0⟩) := by
    norm_num [Trab1.edgeOf, pyRound, Int.fract]
  have hET : Trab1.build_edge_table [(0,0),(6,5/2),(0,5)] 5 =
      [[⟨2, 0, 12/5⟩, ⟨4, 0, 0⟩], [], [⟨4, 36/5, -(12/5)⟩], [], [], []] := by
    rw [Trab1.build_edge_table]
    rw [show List.range (List.length [((0:ℚ),(0:ℚ)),(6,5/2),(0,5)]) = [0,1,2] from rfl]
    simp only [List.foldl_cons, List.foldl_nil, hE0, hE1, hE2]
    rfl
  have hA0 : Trab1.aetAt [[⟨2, 0, 12/5⟩, ⟨4, 0, 0⟩], [], [⟨4, 36/5, -(12/5)⟩], [], [], []] 0 =
      [⟨4, 0, 0⟩, ⟨2, 0, 12/5⟩] := by
    rw [Trab1.aetAt, Trab1.aetEnter, Trab1.activeAt, Trab1.bucketAt]
    norm_num [stableSort, insertLe, Trab1.edgeLe, List.filter]
  have hA1 : Trab1.aetAt [[⟨2, 0, 12/5⟩, ⟨4, 0, 0⟩], [], [⟨4, 36/5, -(12/5)⟩], [], [], []] 1 =
      [⟨4, 0, 0⟩, ⟨2, 12/5, 12/5⟩] := by
    rw [Trab1.aetAt, aetEnter_succ, hA0, Trab1.activeAt, Trab1.bucketAt]
    norm_num [stableSort, insertLe, Trab1.edgeLe, List.filter,
      Trab1.advanceAll, Trab1.advance]
  have hA2 : Trab1.aetAt [[⟨2, 0, 12/5⟩, ⟨4, 0, 0⟩], [], [⟨4, 36/5, -(12/5)⟩], [], [], []] 2 =
      [⟨4, 0, 0⟩, ⟨2, 24/5, 12/5⟩, ⟨4, 36/5, -(12/5)⟩] := by
    rw [Trab1.aetAt, aetEnter_succ, hA1, Trab1.activeAt, Trab1.bucketAt]
    norm_num [stableSort, insertLe, Trab1.edgeLe, List.filter,
      Trab1.advanceAll, Trab1.advance]
  rw [hET, hA2]
  decide

namespace Trab1

theorem mem_spansUpTo (ET : List (List Edge)) :
    ∀ (m : ℕ) (s : ℤ × ℚ × ℚ), s ∈ spansUpTo ET m →
      ∃ y : ℕ, y < m ∧ s ∈ emitAt (y : ℤ) (aetAt ET y) := by
  intro m
  induction m with
  | zero =>
      intro s hs
      cases hs
  | succ k ih =>
      intro s hs
      simp only [spansUpTo] at hs
      rcases List.mem_append.mp hs with hs1 | hs2
      · obtain ⟨y, hy, hmem⟩ := ih s hs1
        exact ⟨y, by omega, hmem⟩
      · exact ⟨k, by omega, hs2⟩

theorem emitAt_mem_bounds (y : ℤ) (A : List Edge) (s : ℤ × ℚ × ℚ)
    (hs : s ∈ emitAt y A) : s.1 = y ∧ s.2.1 < s.2.2 := by
  unfold emitAt at hs
  rcases List.mem_map.mp hs with ⟨p, hp, rfl⟩
  have hfil := List.of_mem_filter hp
  simp only [decide_eq_true_eq] at hfil
  have heps : (0 : ℚ) < eps := by norm_num [eps]
  exact ⟨rfl, by dsimp only; linarith⟩

theorem compute_left_triangle :
    compute_scanline_spans [(-4,0),(4,0),(0,4)] 4 =
      [(0,-4,4),(1,-3,3),(2,-2,2),(3,-1,1)] := by
  have hE0 : edgeOf [(-4,0),(4,0),(0,4)] 4 0 = none := by
    norm_num [edgeOf, pyRound, Int.fract]
  have hE1 : edgeOf [(-4,0),(4,0),(0,4)] 4 1 = some (0, ⟨3, 4, -1⟩) := by
    norm_num [edgeOf, pyRound, Int.fract]
  have hE2 : edgeOf [(-4,0),(4,0),(0,4)] 4 2 = some (0, ⟨3, -4, 1⟩) := by
    norm_num [edgeOf, pyRound, Int.fract]
  have hET : build_edge_table [(-4,0),(4,0),(0,4)] 4 =
      [[⟨3, 4, -1⟩, ⟨3, -4, 1⟩], [], [], [], []] := by
    rw [build_edge_table]
    rw [show List.range (List.length [((-4:ℚ),(0:ℚ)),(4,0),(0,4)]) = [0,1,2] from rfl]
    simp only [List.foldl_cons, List.foldl_nil, hE0, hE1, hE2]
    rfl
  have hA0 : aetAt [[⟨3, 4, -1⟩, ⟨3, -4, 1⟩], [], [], [], []] 0 =
      [⟨3, -4, 1⟩, ⟨3, 4, -1⟩] := by
    rw [aetAt, aetEnter, activeAt, bucketAt]
    norm_num [stableSort, insertLe, edgeLe, List.filter]
  have hA1 : aetAt [[⟨3, 4, -1⟩, ⟨3, -4, 1⟩], [], [], [], []] 1 =
      [⟨3, -3, 1⟩, ⟨3, 3, -1⟩] := by
    rw [aetAt, aetEnter_succ, hA0, activeAt, bucketAt]
    norm_num [stableSort, insertLe, edgeLe, List.filter, advanceAll, advance]
  have hA2 : aetAt [[⟨3, 4, -1⟩, ⟨3, -4, 1⟩], [], [], [], []] 2 =
      [⟨3, -2, 1⟩, ⟨3, 2, -1⟩] := by
    rw [aetAt, aetEnter_succ, hA1, activeAt, bucketAt]
    norm_num [stableSort, insertLe, edgeLe, List.filter, advanceAll, advance]
  have hA3 : aetAt [[⟨3, 4, -1⟩, ⟨3, -4, 1⟩], [], [], [], []] 3 =
      [⟨3, -1, 1⟩, ⟨3, 1, -1⟩] := by
    rw [aetAt, aetEnter_succ, hA2, activeAt, bucketAt]
    norm_num [stableSort, insertLe, edgeLe, List.filter, advanceAll, advance]
  have hA4 : aetAt [[⟨3, 4, -1⟩, ⟨3, -4, 1⟩], [], [], [], []] 4 = [] := by
    rw [aetAt, aetEnter_succ, hA3, activeAt, bucketAt]
    norm_num [stableSort, insertLe, edgeLe, List.filter, advanceAll, advance]
  rw [compute_scanline_spans, hET, show ((4:ℤ) + 1).toNat = 5 by simp]
  simp only [spansUpTo, hA0, hA1, hA2, hA3, hA4]
  norm_num [emitAt, pairs, eps]

theorem compute_wide_triangle (c : ℚ) (hc : 2 ≤ c) :
    compute_scanline_spans [(0,0),(c,2),(0,2)] 2 = [(1, 0, c/2)] := by
  have h0c : (0 : ℚ) < c := by linarith
  have hhalf : (0 : ℚ) < c / 2 := by linarith
  have hnc : ¬ (c / 2 ≤ 0) := by linarith
  have hE0 : edgeOf [(0,0),(c,2),(0,2)] 2 0 = some (0, ⟨1, 0, c/2⟩) := by
    norm_num [edgeOf, pyRound, Int.fract]
  have hE1 : edgeOf [(0,0),(c,2),(0,2)] 2 1 = none := by
    norm_num [edgeOf, pyRound, Int.fract]
  have hE2 : edgeOf [(0,0),(c,2),(0,2)] 2 2 = some (0, ⟨1, 0, 0⟩) := by
    norm_num [edgeOf, pyRound, Int.fract]
  have hET : build_edge_table [(0,0),(c,2),(0,2)] 2 =
      [[⟨1, 0, c/2⟩, ⟨1, 0, 0⟩], [], []] := by
    rw [build_edge_table]
    rw [show List.range (List.length [((0:ℚ),(0:ℚ)),(c,2),(0,2)]) = [0,1,2] from rfl]
    simp only [List.foldl_cons, List.foldl_nil, hE0, hE1, hE2]
    rfl
  have hle1 : edgeLe ⟨1, 0, c/2⟩ ⟨1, 0, 0⟩ = false := by
    simp [edgeLe, hnc]
  have hle2 : edgeLe ⟨1, 0, 0⟩ ⟨1, c/2, c/2⟩ = true := by
    simp [edgeLe, hhalf]
  have hA0 : aetAt [[⟨1, 0, c/2⟩, ⟨1, 0, 0⟩], [], []] 0 =
      [⟨1, 0, 0⟩, ⟨1, 0, c/2⟩] := by
    rw [aetAt, aetEnter, activeAt, bucketAt]
    norm_num [stableSort, insertLe, List.filter, hle1]
  have hA1 : aetAt [[⟨1, 0, c/2⟩, ⟨1, 0, 0⟩], [], []] 1 =
      [⟨1, 0, 0⟩, ⟨1, c/2, c/2⟩] := by
    rw [aetAt, aetEnter_succ, hA0, activeAt, bucketAt]
    norm_num [stableSort, insertLe, List.filter, advanceAll, advance, hle2]
  have hA2 : aetAt [[⟨1, 0, c/2⟩, ⟨1, 0, 0⟩], [], []] 2 = [] := by
    rw [aetAt, aetEnter_succ, hA1, activeAt, bucketAt]
    norm_num [stableSort, insertLe, List.filter, advanceAll, advance]
  have hswap : ¬ ((0 : ℚ) > c / 2) := by linarith
  have hw2 : (1 : ℚ) / 1000000 < c / 2 - 0 := by
    norm_num
    linarith
  rw [compute_scanline_spans, hET, show ((2:ℤ) + 1).toNat = 3 by simp]
  simp only [spansUpTo, hA0, hA1, hA2]
  norm_num [emitAt, pairs, eps, hswap, hw2]
  rw [List.filter_cons, if_pos (show (decide ((1:ℚ) / 1000000 < c / 2 - 0)) = true by
    simp only [decide_eq_true_eq]
    linarith)]
  rfl

end Trab1

/-- C10: every span of compute_scanline_spans has its scanline inside
[0, height] and a strictly increasing x interval, but the x endpoints are
never clamped: a polygon reaching left of x = 0 yields a span with negative
x_left, and for every bound W some polygon yields a span whose x_right
exceeds W. -/
theorem claim_C10_bounds :
    (∀ (v : List (ℚ × ℚ)) (h : ℤ) (s : ℤ × ℚ × ℚ),
      s ∈ Trab1.compute_scanline_spans v h →
        0 ≤ s.1 ∧ s.1 ≤ h ∧ s.2.1 < s.2.2) ∧
    ((0, -4, 4) ∈ Trab1.compute_scanline_spans [(-4,0),(4,0),(0,4)] 4 ∧
      (-4 : ℚ) < 0) ∧
    (∀ W : ℚ, ∃ (v : List (ℚ × ℚ)) (h : ℤ) (s : ℤ × ℚ × ℚ),
      s ∈ Trab1.compute_scanline_spans v h ∧ W < s.2.2) := by
  refine ⟨?_, ⟨?_, by norm_num⟩, ?_⟩
  · intro v h s hs
    unfold Trab1.compute_scanline_spans at hs
    obtain ⟨y, hy, hmem⟩ := Trab1.mem_spansUpTo _ _ s hs
    obtain ⟨h1, h2⟩ := Trab1.emitAt_mem_bounds _ _ s hmem
    refine ⟨by omega, ?_, h2⟩
    rw [h1]
    omega
  · rw [Trab1.compute_left_triangle]
    simp
  · intro W
    refine ⟨[(0,0),(2 * (max W 0 + 1),2),(0,2)], 2, (1, 0, max W 0 + 1), ?_, ?_⟩
    · have hc : (2 : ℚ) ≤ 2 * (max W 0 + 1) := by
        have : (0 : ℚ) ≤ max W 0 := le_max_right W 0
        linarith
      rw [Trab1.compute_wide_triangle _ hc]
      have : 2 * (max W 0 + 1) / 2 = max W 0 + 1 := by ring
      rw [this]
      simp
    · have : W ≤ max W 0 := le_max_left W 0
      dsimp only
      linarith

/-- Witness for C10 at a concrete input: the span (0, -4, 4) of the triangle
reaching x = -4 satisfies the bounds of the first conjunct. -/
theorem claim_C10_bounds_witness :
    0 ≤ ((0 : ℤ), (-4 : ℚ), (4 : ℚ)).1 ∧ ((0 : ℤ), (-4 : ℚ), (4 : ℚ)).1 ≤ 4 ∧
      ((0 : ℤ), (-4 : ℚ), (4 : ℚ)).2.1 < ((0 : ℤ), (-4 : ℚ), (4 : ℚ)).2.2 :=
  claim_C10_bounds.1 [(-4,0),(4,0),(0,4)] 4 (0, -4, 4) claim_C10_bounds.2.1.1

theorem pyTrunc_intCast (m : ℤ) : pyTrunc (m : ℚ) = m := by
  unfold pyTrunc
  simp [Int.tdiv_one]

namespace Trab1

theorem p1of_def (v : List (ℚ × ℚ)) (i : ℕ) : v.getD i (0, 0) = p1of v i := rfl

theorem p2of_def (v : List (ℚ × ℚ)) (i : ℕ) :
    v.getD ((i + 1) % v.length) (0, 0) = p2of v i := rfl

theorem H_getD (v : List (ℚ × ℚ)) (h : ℤ)
    (H : ∀ p ∈ v, ∃ m : ℤ, p.2 = (m : ℚ) ∧ 0 ≤ m ∧ m ≤ h)
    (j : ℕ) (hj : j < v.length) :
    ∃ m : ℤ, (v.getD j (0, 0)).2 = (m : ℚ) ∧ 0 ≤ m ∧ m ≤ h := by
  refine H _ ?_
  rw [List.getD_eq_getElem v (0, 0) hj]
  exact List.getElem_mem hj

end Trab1

namespace Preenche

theorem pAt_zero (e : Edge) : pAt e 0 = e := by
  cases e
  simp [pAt]

theorem pAt_succ (e : Edge) (m : ℕ) :
    ({ pAt e m with x := (pAt e m).x + (pAt e m).slope_inv } : Edge) = pAt e (m + 1) := by
  cases e
  simp [pAt]
  ring

theorem pAt_y_min (e : Edge) (m : ℕ) : (pAt e m).y_min = e.y_min := rfl

theorem pAt_y_max (e : Edge) (m : ℕ) : (pAt e m).y_max = e.y_max := rfl

theorem pedgeOf_eq (v : List (ℚ × ℚ)) (i : ℕ) :
    pedgeOf v i =
      if (Trab1.p1of v i).2 = (Trab1.p2of v i).2 then none
      else if (Trab1.p1of v i).2 > (Trab1.p2of v i).2 then
        some ⟨(Trab1.p2of v i).2, (Trab1.p1of v i).2, (Trab1.p2of v i).1,
          ((Trab1.p1of v i).1 - (Trab1.p2of v i).1) /
            ((Trab1.p1of v i).2 - (Trab1.p2of v i).2)⟩
      else
        some ⟨(Trab1.p1of v i).2, (Trab1.p2of v i).2, (Trab1.p1of v i).1,
          ((Trab1.p2of v i).1 - (Trab1.p1of v i).1) /
            ((Trab1.p2of v i).2 - (Trab1.p1of v i).2)⟩ := by
  simp only [pedgeOf, Trab1.p1of, Trab1.p2of, gt_iff_lt]
  split_ifs <;> rfl

theorem pedgeOf_none (v : List (ℚ × ℚ)) (i : ℕ)
    (heq : (Trab1.p1of v i).2 = (Trab1.p2of v i).2) : pedgeOf v i = none := by
  rw [pedgeOf_eq, if_pos heq]

theorem pedgeOf_int (v : List (ℚ × ℚ)) (i : ℕ) (a b : ℤ)
    (hy1 : (Trab1.p1of v i).2 = (a : ℚ)) (hy2 : (Trab1.p2of v i).2 = (b : ℚ))
    (hne : a ≠ b) :
    pedgeOf v i = some ⟨((min a b : ℤ) : ℚ), ((max a b : ℤ) : ℚ),
      Trab1.xAtYminOf v i, Trab1.invSlopeOf v i⟩ := by
  have hyne : (Trab1.p1of v i).2 ≠ (Trab1.p2of v i).2 := by
    rw [hy1, hy2]
    exact_mod_cast hne
  rw [pedgeOf_eq, if_neg hyne]
  rcases lt_trichotomy (Trab1.p1of v i).2 (Trab1.p2of v i).2 with hlt | heq | hgt
  · have hngt : ¬ ((Trab1.p1of v i).2 > (Trab1.p2of v i).2) := not_lt.mpr (le_of_lt hlt)
    rw [if_neg hngt]
    have hab : a < b := by
      rw [hy1, hy2] at hlt
      exact_mod_cast hlt
    have h4 : ((Trab1.p2of v i).1 - (Trab1.p1of v i).1) /
        ((Trab1.p2of v i).2 - (Trab1.p1of v i).2) = Trab1.invSlopeOf v i := by
      unfold Trab1.invSlopeOf Trab1.dxOf Trab1.dyOf
      rw [if_pos hlt, if_pos hlt]
    have h3 : (Trab1.p1of v i).1 = Trab1.xAtYminOf v i := by
      unfold Trab1.xAtYminOf
      rw [if_pos hlt]
    have h1 : (Trab1.p1of v i).2 = ((min a b : ℤ) : ℚ) := by
      rw [min_eq_left (le_of_lt hab)]
      exact hy1
    have h2 : (Trab1.p2of v i).2 = ((max a b : ℤ) : ℚ) := by
      rw [max_eq_right (le_of_lt hab)]
      exact hy2
    rw [h4, h3, h1, h2]
  · exact absurd heq hyne
  · have hgt2 : (Trab1.p1of v i).2 > (Trab1.p2of v i).2 := hgt
    rw [if_pos hgt2]
    have hab : b < a := by
      rw [hy1, hy2] at hgt
      exact_mod_cast hgt
    have hnlt : ¬ ((Trab1.p1of v i).2 < (Trab1.p2of v i).2) := not_lt.mpr (le_of_lt hgt)
    have h4 : ((Trab1.p1of v i).1 - (Trab1.p2of v i).1) /
        ((Trab1.p1of v i).2 - (Trab1.p2of v i).2) = Trab1.invSlopeOf v i := by
      unfold Trab1.invSlopeOf Trab1.dxOf Trab1.dyOf
      rw [if_neg hnlt, if_neg hnlt]
    have h3 : (Trab1.p2of v i).1 = Trab1.xAtYminOf v i := by
      unfold Trab1.xAtYminOf
      rw [if_neg hnlt]
    have h1 : (Trab1.p2of v i).2 = ((min a b : ℤ) : ℚ) := by
      rw [min_eq_right (le_of_lt hab)]
      exact hy2
    have h2 : (Trab1.p1of v i).2 = ((max a b : ℤ) : ℚ) := by
      rw [max_eq_left (le_of_lt hab)]
      exact hy1
    rw [h4, h3, h1, h2]

end Preenche

theorem actX_eq (v : List (ℚ × ℚ)) (h : ℤ)
    (H : ∀ p ∈ v, ∃ m : ℤ, p.2 = (m : ℚ) ∧ 0 ≤ m ∧ m ≤ h) (y : ℤ) :
    (Trab1.activeIdx v h y).map (fun q => q.2.x) =
      (Preenche.pActiveIdx v y).map (fun q => q.2.x) := by
  unfold Trab1.activeIdx Preenche.pActiveIdx
  rw [List.map_filterMap, List.map_filterMap]
  refine List.filterMap_congr ?_
  intro i hi
  have hin : i < v.length := List.mem_range.mp hi
  have hn0 : 0 < v.length := by omega
  have hj : (i + 1) % v.length < v.length := Nat.mod_lt _ hn0
  obtain ⟨a, hay, ha0, hah⟩ := Trab1.H_getD v h H i hin
  obtain ⟨b, hby, hb0, hbh⟩ := Trab1.H_getD v h H _ hj
  have hp1 : (Trab1.p1of v i).2 = (a : ℚ) := hay
  have hp2 : (Trab1.p2of v i).2 = (b : ℚ) := hby
  by_cases hab : a = b
  · subst hab
    have h1 : Trab1.edgeOf v h i = none := by
      rw [Trab1.edgeOf_eq, if_pos (by rw [hp1, hp2])]
    have h2 : Preenche.pedgeOf v i = none := Preenche.pedgeOf_none v i (by rw [hp1, hp2])
    rw [h1, h2]
    rfl
  · have h1 := Trab1.edgeOf_int v h i a b hp1 hp2 ha0 hb0 hah hbh hab
    have h2 := Preenche.pedgeOf_int v i a b hp1 hp2 hab
    rw [h1, h2]
    simp only [Option.some_bind]
    by_cases hcond : min a b ≤ y ∧ y ≤ max a b - 1
    · have hc2 : (((min a b : ℤ) : ℚ)) ≤ (y : ℚ) ∧ (y : ℚ) < ((max a b : ℤ) : ℚ) := by
        constructor
        · exact_mod_cast hcond.1
        · exact_mod_cast (show y < max a b by omega)
      rw [if_pos hcond, if_pos hc2]
      have hmin : pyTrunc ((a : ℚ) ⊓ (b : ℚ)) = a ⊓ b := by
        rw [← Int.cast_min, pyTrunc_intCast]
      simp [Trab1.eAt, Preenche.pAt, pyTrunc_intCast, hmin]
    · have hc2 : ¬ ((((min a b : ℤ) : ℚ)) ≤ (y : ℚ) ∧ (y : ℚ) < ((max a b : ℤ) : ℚ)) := by
        intro hcon
        refine hcond ⟨by exact_mod_cast hcon.1, ?_⟩
        have : y < max a b := by exact_mod_cast hcon.2
        omega
      rw [if_neg hcond, if_neg hc2]
      rfl

namespace Preenche

theorem yMinPoly_int (v : List (ℚ × ℚ)) (h : ℤ) (hne : v ≠ [])
    (H : ∀ p ∈ v, ∃ m : ℤ, p.2 = (m : ℚ) ∧ 0 ≤ m ∧ m ≤ h) :
    ∃ ml : ℤ, yMinPoly v = (ml : ℚ) ∧ 0 ≤ ml ∧ ml ≤ h ∧
      ∀ p ∈ v, (ml : ℚ) ≤ p.2 := by
  have hmapne : v.map Prod.snd ≠ [] := by simpa using hne
  rcases hq : (v.map Prod.snd).min? with _ | q
  · exact absurd (List.min?_eq_none_iff.mp hq) hmapne
  · have hqmem : q ∈ v.map Prod.snd := List.min?_mem min_choice hq
    obtain ⟨p, hp, hpq⟩ := List.mem_map.mp hqmem
    obtain ⟨m, hm, hm0, hmh⟩ := H p hp
    have hqm : q = (m : ℚ) := by rw [← hpq, hm]
    refine ⟨m, ?_, hm0, hmh, ?_⟩
    · unfold yMinPoly
      rw [hq, Option.getD_some, hqm]
    · intro r hr
      have hall := (List.le_min?_iff (fun _ _ _ => le_min_iff) hq).mp (le_refl q)
      have hrm : r.2 ∈ v.map Prod.snd := List.mem_map.mpr ⟨r, hr, rfl⟩
      have hqr := hall _ hrm
      rw [hqm] at hqr
      exact hqr

theorem yMaxPoly_int (v : List (ℚ × ℚ)) (h : ℤ) (hne : v ≠ [])
    (H : ∀ p ∈ v, ∃ m : ℤ, p.2 = (m : ℚ) ∧ 0 ≤ m ∧ m ≤ h) :
    ∃ mh : ℤ, yMaxPoly v = (mh : ℚ) ∧ 0 ≤ mh ∧ mh ≤ h ∧
      ∀ p ∈ v, p.2 ≤ (mh : ℚ) := by
  have hmapne : v.map Prod.snd ≠ [] := by simpa using hne
  rcases hq : (v.map Prod.snd).max? with _ | q
  · exact absurd (List.max?_eq_none_iff.mp hq) hmapne
  · have hqmem : q ∈ v.map Prod.snd := List.max?_mem max_choice hq
    obtain ⟨p, hp, hpq⟩ := List.mem_map.mp hqmem
    obtain ⟨m, hm, hm0, hmh⟩ := H p hp
    have hqm : q = (m : ℚ) := by rw [← hpq, hm]
    refine ⟨m, ?_, hm0, hmh, ?_⟩
    · unfold yMaxPoly
      rw [hq, Option.getD_some, hqm]
    · intro r hr
      have hall := (List.max?_le_iff (fun _ _ _ => max_le_iff) hq).mp (le_refl q)
      have hrm : r.2 ∈ v.map Prod.snd := List.mem_map.mpr ⟨r, hr, rfl⟩
      have hqr := hall _ hrm
      rw [hqm] at hqr
      exact hqr

theorem ixLe_compat (a b : ℕ × Edge) : ixLe a b = xLe a.2 b.2 := rfl

theorem iymLe_compat (a b : ℕ × Edge) : iymLe a b = ymLe a.2 b.2 := rfl

theorem ipCreate_proj (v : List (ℚ × ℚ)) :
    (ipCreate v).map Prod.snd = create_et v := by
  unfold ipCreate create_et
  rw [map_stableSort ymLe iymLe Prod.snd (fun a b => rfl)]
  congr 1
  rw [List.map_filterMap]
  refine List.filterMap_congr ?_
  intro i _
  rcases pedgeOf v i with _ | e <;> rfl

theorem ipreActive_proj (st : List (ℕ × Edge) × List (ℕ × Edge)) (y : ℤ) :
    (ipreActive st y).map Prod.snd =
      preActive (st.1.map Prod.snd, st.2.map Prod.snd) y := by
  unfold ipreActive preActive
  rw [map_stableSort xLe ixLe Prod.snd (fun a b => rfl)]
  congr 1
  have h1 : (fun (e : ℕ × Edge) => decide ((y : ℚ) < e.2.y_max)) =
      ((fun e : Edge => decide ((y : ℚ) < e.y_max)) ∘ Prod.snd) := rfl
  have h2 : (fun (e : ℕ × Edge) => decide (e.2.y_min = (y : ℚ))) =
      ((fun e : Edge => decide (e.y_min = (y : ℚ))) ∘ Prod.snd) := rfl
  rw [h1, ← List.filter_map, List.map_append, h2, ← List.filter_map]

theorem ipreEtAfter_proj (et : List (ℕ × Edge)) (y : ℤ) :
    (ipreEtAfter et y).map Prod.snd = preEtAfter (et.map Prod.snd) y := by
  unfold ipreEtAfter preEtAfter
  rw [List.filter_map]
  rfl

theorem ipAdvanceAll_proj (A : List (ℕ × Edge)) :
    (ipAdvanceAll A).map Prod.snd = pAdvanceAll (A.map Prod.snd) := by
  unfold ipAdvanceAll pAdvanceAll
  simp [List.map_map, Function.comp]

theorem ipre_proj (v : List (ℚ × ℚ)) :
    ∀ j, ((ipreEnter v j).1).map Prod.snd = (preEnter v j).1 ∧
      ((ipreEnter v j).2).map Prod.snd = (preEnter v j).2 := by
  intro j
  induction j with
  | zero => exact ⟨ipCreate_proj v, rfl⟩
  | succ m ih =>
      constructor
      · show (ipreEtAfter (ipreEnter v m).1 _).map Prod.snd =
          preEtAfter (preEnter v m).1 _
        rw [ipreEtAfter_proj, ih.1]
      · show (ipAdvanceAll (ipreActive (ipreEnter v m) _)).map Prod.snd =
          pAdvanceAll (preActive (preEnter v m) _)
        rw [ipAdvanceAll_proj, ipreActive_proj, ih.1, ih.2]

theorem ipreAet_proj (v : List (ℚ × ℚ)) (j : ℕ) :
    (ipreAetAt v j).map Prod.snd = preAetAt v j := by
  unfold ipreAetAt preAetAt
  rw [ipreActive_proj, (ipre_proj v j).1, (ipre_proj v j).2]

end Preenche

namespace Preenche

theorem getD_mem_of_lt {α : Type} (l : List α) (d : α) (j : ℕ) (hj : j < l.length) :
    l.getD j d ∈ l := by
  rw [List.getD_eq_getElem l d hj]
  exact List.getElem_mem hj

theorem pedge_fields (v : List (ℚ × ℚ)) (h : ℤ)
    (H : ∀ p ∈ v, ∃ m : ℤ, p.2 = (m : ℚ) ∧ 0 ≤ m ∧ m ≤ h)
    (i : ℕ) (hin : i < v.length) (e : Edge) (he : pedgeOf v i = some e) :
    ∃ c d : ℤ, c < d ∧ 0 ≤ c ∧ d ≤ h ∧
      e.y_min = (c : ℚ) ∧ e.y_max = (d : ℚ) := by
  have hn0 : 0 < v.length := by omega
  have hj : (i + 1) % v.length < v.length := Nat.mod_lt _ hn0
  obtain ⟨a, hay, ha0, hah⟩ := Trab1.H_getD v h H i hin
  obtain ⟨b, hby, hb0, hbh⟩ := Trab1.H_getD v h H _ hj
  have hp1 : (Trab1.p1of v i).2 = (a : ℚ) := hay
  have hp2 : (Trab1.p2of v i).2 = (b : ℚ) := hby
  by_cases hab : a = b
  · rw [pedgeOf_none v i (by rw [hp1, hp2, hab])] at he
    cases he
  · rw [pedgeOf_int v i a b hp1 hp2 hab] at he
    have he2 := (Option.some_inj.mp he).symm
    subst he2
    exact ⟨min a b, max a b, by omega, by omega, by omega, rfl, rfl⟩

theorem pPending_step (v : List (ℚ × ℚ)) (h : ℤ)
    (H : ∀ p ∈ v, ∃ m : ℤ, p.2 = (m : ℚ) ∧ 0 ≤ m ∧ m ≤ h) (y : ℤ) :
    ipreEtAfter (pPendingIdx v y) y = pPendingIdx v (y + 1) := by
  unfold ipreEtAfter pPendingIdx
  rw [List.filter_filterMap]
  refine List.filterMap_congr ?_
  intro i hi
  have hin : i < v.length := List.mem_range.mp hi
  rcases hE : pedgeOf v i with _ | e
  · rfl
  · obtain ⟨c, d, hcd, hc0, hdh, hymin, hymax⟩ := pedge_fields v h H i hin e hE
    by_cases h1 : (y : ℚ) ≤ e.y_min
    · have hyc : y ≤ c := by
        rw [hymin] at h1
        exact_mod_cast h1
      by_cases h2 : e.y_min = (y : ℚ)
      · have h3 : ¬ ((y : ℚ) + 1 ≤ e.y_min) := by
          rw [h2]
          linarith
        simp [Option.filter, h1, h2, h3, Int.cast_add, Int.cast_one]
        norm_num
      · have hcy : c ≠ y := by
          intro hc
          exact h2 (by rw [hymin, hc])
        have h3 : ((y : ℚ) + 1 ≤ e.y_min) := by
          rw [hymin]
          have : ((y + 1 : ℤ) : ℚ) ≤ ((c : ℤ) : ℚ) :=
            Int.cast_le.mpr (by omega : y + 1 ≤ c)
          push_cast at this
          linarith
        simp [Option.filter, h1, h2, h3, Int.cast_add, Int.cast_one]
    · have h3 : ¬ ((y : ℚ) + 1 ≤ e.y_min) := by
        intro hc
        exact h1 (by linarith)
      simp [Option.filter, h1, h3, Int.cast_add, Int.cast_one]

theorem ipCreate_perm_pending (v : List (ℚ × ℚ)) (h : ℤ) (hne : v ≠ [])
    (H : ∀ p ∈ v, ∃ m : ℤ, p.2 = (m : ℚ) ∧ 0 ≤ m ∧ m ≤ h) :
    (ipCreate v).Perm (pPendingIdx v (pyTrunc (yMinPoly v))) := by
  obtain ⟨ml, hml, hml0, hmlh, hmlle⟩ := yMinPoly_int v h hne H
  unfold ipCreate pPendingIdx
  refine (perm_stableSort _ _).trans (List.Perm.of_eq (List.filterMap_congr ?_))
  intro i hi
  have hin : i < v.length := List.mem_range.mp hi
  rcases hE : pedgeOf v i with _ | e
  · rfl
  · have hn0 : 0 < v.length := by omega
    have hj : (i + 1) % v.length < v.length := Nat.mod_lt _ hn0
    obtain ⟨a, hay, ha0, hah⟩ := Trab1.H_getD v h H i hin
    obtain ⟨b, hby, hb0, hbh⟩ := Trab1.H_getD v h H _ hj
    have hp1 : (Trab1.p1of v i).2 = (a : ℚ) := hay
    have hp2 : (Trab1.p2of v i).2 = (b : ℚ) := hby
    by_cases hab : a = b
    · rw [pedgeOf_none v i (by rw [hp1, hp2, hab])] at hE
      cases hE
    · rw [pedgeOf_int v i a b hp1 hp2 hab] at hE
      have he2 := (Option.some_inj.mp hE).symm
      subst he2
      have hma : (ml : ℚ) ≤ (a : ℚ) := by
        have := hmlle _ (getD_mem_of_lt v (0, 0) i hin)
        rw [hay] at this  -- wait: this : (ml:ℚ) ≤ (v.getD i (0,0)).2
        exact this
      have hmb : (ml : ℚ) ≤ (b : ℚ) := by
        have := hmlle _ (getD_mem_of_lt v (0, 0) _ hj)
        rw [hby] at this
        exact this
      have hcond : (pyTrunc (yMinPoly v) : ℚ) ≤
          ((⟨((min a b : ℤ) : ℚ), ((max a b : ℤ) : ℚ), Trab1.xAtYminOf v i,
            Trab1.invSlopeOf v i⟩ : Edge)).y_min := by
        show (pyTrunc (yMinPoly v) : ℚ) ≤ ((min a b : ℤ) : ℚ)
        rw [hml, pyTrunc_intCast]
        have hma2 : ml ≤ a := by exact_mod_cast hma
        have hmb2 : ml ≤ b := by exact_mod_cast hmb
        exact_mod_cast (by omega : ml ≤ min a b)
      show Option.map _ (some _) = Option.bind (some _) _
      simp only [Option.map_some', Option.some_bind]
      rw [if_pos hcond]

theorem pActive_before (v : List (ℚ × ℚ)) (h : ℤ) (hne : v ≠ [])
    (H : ∀ p ∈ v, ∃ m : ℤ, p.2 = (m : ℚ) ∧ 0 ≤ m ∧ m ≤ h) (y : ℤ)
    (hy : y < pyTrunc (yMinPoly v)) :
    pActiveIdx v y = [] := by
  obtain ⟨ml, hml, hml0, hmlh, hmlle⟩ := yMinPoly_int v h hne H
  have hylm : y < ml := by
    rw [hml, pyTrunc_intCast] at hy
    exact hy
  unfold pActiveIdx
  rw [List.filterMap_eq_nil_iff]  -- might be List.filterMap_eq_nil
  intro i hi
  have hin : i < v.length := List.mem_range.mp hi
  rcases hE : pedgeOf v i with _ | e
  · rfl
  · have hn0 : 0 < v.length := by omega
    have hj : (i + 1) % v.length < v.length := Nat.mod_lt _ hn0
    obtain ⟨a, hay, ha0, hah⟩ := Trab1.H_getD v h H i hin
    obtain ⟨b, hby, hb0, hbh⟩ := Trab1.H_getD v h H _ hj
    have hp1 : (Trab1.p1of v i).2 = (a : ℚ) := hay
    have hp2 : (Trab1.p2of v i).2 = (b : ℚ) := hby
    by_cases hab : a = b
    · rw [pedgeOf_none v i (by rw [hp1, hp2, hab])] at hE
      cases hE
    · rw [pedgeOf_int v i a b hp1 hp2 hab] at hE
      have he2 := (Option.some_inj.mp hE).symm
      subst he2
      have hma : ml ≤ a := by
        have := hmlle _ (getD_mem_of_lt v (0, 0) i hin)
        rw [hay] at this
        exact_mod_cast this
      have hmb : ml ≤ b := by
        have := hmlle _ (getD_mem_of_lt v (0, 0) _ hj)
        rw [hby] at this
        exact_mod_cast this
      have hcond : ¬ ((((min a b : ℤ) : ℚ)) ≤ (y : ℚ) ∧
          (y : ℚ) < ((max a b : ℤ) : ℚ)) := by
        intro hcon
        have : min a b ≤ y := by exact_mod_cast hcon.1
        omega
      rw [hE]
      simp only [Option.some_bind]
      rw [if_neg hcond]

end Preenche

namespace Preenche

theorem pActive_step (v : List (ℚ × ℚ)) (h : ℤ)
    (H : ∀ p ∈ v, ∃ m : ℤ, p.2 = (m : ℚ) ∧ 0 ≤ m ∧ m ≤ h) (y : ℤ) :
    ((ipAdvanceAll (pActiveIdx v y) ++
        (pPendingIdx v (y + 1)).filter
          (fun q => decide (q.2.y_min = ((y + 1 : ℤ) : ℚ)))).filter
      (fun q => decide (((y + 1 : ℤ) : ℚ) < q.2.y_max))).Perm
      (pActiveIdx v (y + 1)) := by
  rw [List.filter_append]
  unfold ipAdvanceAll pActiveIdx pPendingIdx
  simp only [List.map_filterMap, List.filter_filterMap]
  refine (perm_filterMap_append _ _ _ ?_).trans (List.Perm.of_eq (List.filterMap_congr ?_))
  · intro i _
    rcases hE : pedgeOf v i with _ | e
    · left
      simp [hE]
    · by_cases hA : e.y_min ≤ (y : ℚ) ∧ (y : ℚ) < e.y_max
      · right
        have hnp : ¬ ((y : ℚ) + 1 ≤ e.y_min) := by linarith [hA.1]
        simp [hE, Option.filter, hnp, Int.cast_add, Int.cast_one]
      · left
        simp [hE, Option.filter, hA]
  · intro i hi
    have hin : i < v.length := List.mem_range.mp hi
    rcases hE : pedgeOf v i with _ | e
    · simp [hE]
    · obtain ⟨c, d, hcd, hc0, hdh, hymin, hymax⟩ := pedge_fields v h H i hin e hE
      have htr : pyTrunc e.y_min = c := by rw [hymin, pyTrunc_intCast]
      by_cases hcy : c ≤ y
      · have hq1 : e.y_min ≤ (y : ℚ) := by
          rw [hymin]
          exact_mod_cast hcy
        by_cases hyd : y < d
        · have hq2 : (y : ℚ) < e.y_max := by
            rw [hymax]
            exact_mod_cast hyd
          have hnp : ¬ ((y : ℚ) + 1 ≤ e.y_min) := by linarith
          by_cases h2 : y + 1 < d
          · have hq3 : (y : ℚ) + 1 < e.y_max := by
              rw [hymax]
              have : ((y + 1 : ℤ) : ℚ) < ((d : ℤ) : ℚ) := Int.cast_lt.mpr h2
              push_cast at this
              linarith
            have hq4 : e.y_min ≤ (y : ℚ) + 1 := by linarith
            have harith : (y - c).toNat + 1 = (y + 1 - c).toNat := by omega
            simp [hE, Option.filter, hq1, hq2, hq3, hq4, hnp, htr, pAt_succ,
              pAt_y_max, pAt_y_min, Int.cast_add, Int.cast_one, harith]
            rw [← harith, ← pAt_succ e (y - c).toNat]
            rfl
          · have hq3 : ¬ ((y : ℚ) + 1 < e.y_max) := by
              rw [hymax]
              intro hcon
              have : y + 1 < d := by exact_mod_cast hcon
              omega
            have hle : e.y_max ≤ (y : ℚ) + 1 := not_lt.mp hq3
            simp [hE, Option.filter, hq1, hq2, hq3, hle, hnp, htr, pAt_y_max, pAt_y_min,
              Int.cast_add, Int.cast_one]
        · have hq2 : ¬ ((y : ℚ) < e.y_max) := by
            rw [hymax]
            intro hcon
            exact hyd (by exact_mod_cast hcon)
          have hq3 : ¬ ((y : ℚ) + 1 < e.y_max) := by
            rw [hymax]
            intro hcon
            have : y + 1 < d := by exact_mod_cast hcon
            omega
          have hnp : ¬ ((y : ℚ) + 1 ≤ e.y_min) := by
            rw [hymin]
            intro hcon
            have : y + 1 ≤ c := by exact_mod_cast hcon
            omega
          simp [hE, Option.filter, hq2, hq3, hnp, Int.cast_add, Int.cast_one]
      · have hq1 : ¬ (e.y_min ≤ (y : ℚ)) := by
          rw [hymin]
          intro hcon
          exact hcy (by exact_mod_cast hcon)
        by_cases hc1 : c = y + 1
        · subst hc1
          have hii : ¬ (y + 1 ≤ y) := by omega
          have h10 : ¬ ((1 : ℚ) ≤ 0) := by norm_num
          have htr2 : pyTrunc ((y : ℚ) + 1) = y + 1 := by
            have hc : ((y + 1 : ℤ) : ℚ) = (y : ℚ) + 1 := by push_cast; ring
            rw [← hc, pyTrunc_intCast]
          by_cases h2 : y + 1 < d
          · have hlt : (y : ℚ) + 1 < (d : ℚ) := by
              have hq : ((y + 1 : ℤ) : ℚ) < ((d : ℤ) : ℚ) := Int.cast_lt.mpr h2
              push_cast at hq
              linarith
            simp [hE, Option.filter, hymin, hymax, htr2, hii, h10, hlt, pAt_zero]
          · have hlt : ¬ ((y : ℚ) + 1 < (d : ℚ)) := by
              intro hcon
              have : y + 1 < d := by exact_mod_cast hcon
              omega
            simp [hE, Option.filter, hymin, hymax, htr2, hii, h10, hlt, pAt_zero]
        · have hpq : (y : ℚ) + 1 ≤ (c : ℚ) := by
            exact_mod_cast (by omega : y + 1 ≤ c)
          have hneq : ¬ ((c : ℚ) = (y : ℚ) + 1) := by
            intro hcon
            exact hc1 (by exact_mod_cast hcon)
          have hrq : ¬ ((c : ℚ) ≤ (y : ℚ) + 1) := by
            intro hcon
            have : c ≤ y + 1 := by exact_mod_cast hcon
            omega
          simp [hE, Option.filter, hymin, hymax, hcy, hpq, hneq, hrq]

end Preenche

namespace Preenche

theorem ipre_inv (v : List (ℚ × ℚ)) (h : ℤ) (hne : v ≠ [])
    (H : ∀ p ∈ v, ∃ m : ℤ, p.2 = (m : ℚ) ∧ 0 ≤ m ∧ m ≤ h) :
    ∀ j : ℕ, ((ipreEnter v j).1).Perm (pPendingIdx v (pyTrunc (yMinPoly v) + j)) ∧
      (ipreAetAt v j).Perm (pActiveIdx v (pyTrunc (yMinPoly v) + j)) := by
  intro j
  induction j with
  | zero =>
      constructor
      · simp only [Nat.cast_zero, add_zero]
        exact ipCreate_perm_pending v h hne H
      · have hstep := pActive_step v h H (pyTrunc (yMinPoly v) - 1)
        have hbefore : pActiveIdx v (pyTrunc (yMinPoly v) - 1) = [] :=
          pActive_before v h hne H _ (by omega)
        rw [hbefore] at hstep
        have harith : pyTrunc (yMinPoly v) - 1 + 1 = pyTrunc (yMinPoly v) := by omega
        simp only [harith] at hstep
        have hnil : ipAdvanceAll ([] : List (ℕ × Edge)) = [] := rfl
        rw [hnil, List.nil_append] at hstep
        unfold ipreAetAt ipreActive
        simp only [Nat.cast_zero, add_zero]
        refine (perm_stableSort _ _).trans ?_
        show ((([] : List (ℕ × Edge)) ++ (ipCreate v).filter _).filter _).Perm _
        rw [List.nil_append]
        exact (((ipCreate_perm_pending v h hne H).filter _).filter _).trans hstep
  | succ j ih =>
      obtain ⟨ih1, ih2⟩ := ih
      have hc : pyTrunc (yMinPoly v) + ((j + 1 : ℕ) : ℤ) =
          (pyTrunc (yMinPoly v) + (j : ℤ)) + 1 := by push_cast; ring
      have h1 : ((ipreEnter v (j + 1)).1).Perm
          (pPendingIdx v ((pyTrunc (yMinPoly v) + (j : ℤ)) + 1)) := by
        refine List.Perm.trans ?_ (List.Perm.of_eq (pPending_step v h H
          (pyTrunc (yMinPoly v) + (j : ℤ))))
        exact ih1.filter _
      constructor
      · rw [hc]
        exact h1
      · unfold ipreAetAt ipreActive
        simp only [hc]
        refine (perm_stableSort _ _).trans ?_
        refine List.Perm.trans ?_ (pActive_step v h H (pyTrunc (yMinPoly v) + (j : ℤ)))
        refine List.Perm.filter _ (List.Perm.append ?_ ?_)
        · exact ih2.map _
        · exact h1.filter _

end Preenche

theorem xLe_total (a b : Preenche.Edge) :
    Preenche.xLe a b = true ∨ Preenche.xLe b a = true := by
  simp only [Preenche.xLe, decide_eq_true_eq]
  exact le_total a.x b.x

theorem xLe_trans (a b c : Preenche.Edge) :
    Preenche.xLe a b = true → Preenche.xLe b c = true → Preenche.xLe a c = true := by
  simp only [Preenche.xLe, decide_eq_true_eq]
  exact le_trans

theorem xLe_imp (a b : Preenche.Edge) : Preenche.xLe a b = true → a.x ≤ b.x := by
  simp only [Preenche.xLe, decide_eq_true_eq]
  exact id

theorem edgeLe_total (a b : Trab1.Edge) :
    Trab1.edgeLe a b = true ∨ Trab1.edgeLe b a = true := by
  simp only [Trab1.edgeLe, Bool.or_eq_true, Bool.and_eq_true, decide_eq_true_eq]
  rcases lt_trichotomy a.x b.x with hlt | heq | hgt
  · exact Or.inl (Or.inl hlt)
  · rcases le_total a.inv_slope b.inv_slope with hs | hs
    · exact Or.inl (Or.inr ⟨heq, hs⟩)
    · exact Or.inr (Or.inr ⟨heq.symm, hs⟩)
  · exact Or.inr (Or.inl hgt)

theorem edgeLe_trans (a b c : Trab1.Edge) :
    Trab1.edgeLe a b = true → Trab1.edgeLe b c = true → Trab1.edgeLe a c = true := by
  simp only [Trab1.edgeLe, Bool.or_eq_true, Bool.and_eq_true, decide_eq_true_eq]
  rintro (h1 | ⟨h1, h1s⟩) (h2 | ⟨h2, h2s⟩)
  · exact Or.inl (lt_trans h1 h2)
  · exact Or.inl (by rw [← h2]; exact h1)
  · exact Or.inl (by rw [h1]; exact h2)
  · exact Or.inr ⟨h1.trans h2, h1s.trans h2s⟩

theorem edgeLe_imp (a b : Trab1.Edge) : Trab1.edgeLe a b = true → a.x ≤ b.x := by
  simp only [Trab1.edgeLe, Bool.or_eq_true, Bool.and_eq_true, decide_eq_true_eq]
  rintro (h | ⟨h, _⟩)
  · exact le_of_lt h
  · exact le_of_eq h

theorem preAet_x_pairwise (v : List (ℚ × ℚ)) (j : ℕ) :
    (Preenche.preAetAt v j).Pairwise (fun a b => a.x ≤ b.x) := by
  unfold Preenche.preAetAt Preenche.preActive
  exact (pairwise_stableSort Preenche.xLe xLe_total xLe_trans _).imp
    (fun hab => xLe_imp _ _ hab)

theorem aetAt_x_pairwise (ET : List (List Trab1.Edge)) (y : ℕ) :
    (Trab1.aetAt ET y).Pairwise (fun a b => a.x ≤ b.x) := by
  unfold Trab1.aetAt Trab1.activeAt
  exact (pairwise_stableSort Trab1.edgeLe edgeLe_total edgeLe_trans _).imp
    (fun hab => edgeLe_imp _ _ hab)

theorem runPairs_eq_pairs (y : ℤ) :
    ∀ (n : ℕ) (A : List Preenche.Edge) (B : List Trab1.Edge),
      A.length ≤ n →
      A.map (fun e => e.x) = B.map (fun e => e.x) →
      B.Pairwise (fun e1 e2 => e1.x ≤ e2.x) →
      Preenche.runPairs y A =
        (Trab1.pairs B).map (fun p => (y, pyTrunc p.1, pyTrunc p.2)) := by
  intro n
  induction n with
  | zero =>
      intro A B hlen hmap hpw
      have hA : A = [] := List.length_eq_zero.mp (Nat.le_zero.mp hlen)
      subst hA
      cases B with
      | nil => rfl
      | cons b B2 => simp at hmap
  | succ n ihn =>
      intro A B hlen hmap hpw
      cases A with
      | nil =>
          cases B with
          | nil => rfl
          | cons b B2 => simp at hmap
      | cons a1 A1 =>
          cases B with
          | nil => simp at hmap
          | cons b1 B1 =>
              cases A1 with
              | nil =>
                  cases B1 with
                  | nil => rfl
                  | cons b2 B2 => simp at hmap
              | cons a2 A2 =>
                  cases B1 with
                  | nil => simp at hmap
                  | cons b2 B2 =>
                      simp only [List.map_cons, List.cons.injEq] at hmap
                      obtain ⟨h1, h2, h3⟩ := hmap
                      have hble : b1.x ≤ b2.x :=
                        (List.pairwise_cons.mp hpw).1 b2 (List.mem_cons_self b2 B2)
                      have hpw2 : B2.Pairwise (fun e1 e2 => e1.x ≤ e2.x) :=
                        (List.pairwise_cons.mp (List.pairwise_cons.mp hpw).2).2
                      have hlen2 : A2.length ≤ n := by
                        simp only [List.length_cons] at hlen
                        omega
                      have htail := ihn A2 B2 hlen2 h3 hpw2
                      have hswap : ¬ (b1.x > b2.x) := not_lt.mpr hble
                      show (y, pyTrunc a1.x, pyTrunc a2.x) :: Preenche.runPairs y A2 = _
                      rw [show Trab1.pairs (b1 :: b2 :: B2) =
                        (if b1.x > b2.x then (b2.x, b1.x) else (b1.x, b2.x)) ::
                          Trab1.pairs B2 from rfl]
                      rw [if_neg hswap]
                      simp only [List.map_cons]
                      rw [h1, h2, htail]

theorem aet_x_eq (v : List (ℚ × ℚ)) (h : ℤ) (hne : v ≠ [])
    (H : ∀ p ∈ v, ∃ m : ℤ, p.2 = (m : ℚ) ∧ 0 ≤ m ∧ m ≤ h) (j : ℕ) :
    (Preenche.preAetAt v j).map (fun e => e.x) =
      (Trab1.aetAt (Trab1.build_edge_table v h)
        (pyTrunc (Preenche.yMinPoly v) + (j : ℤ)).toNat).map (fun e => e.x) := by
  obtain ⟨ml, hml, hml0, hmlh, hmlle⟩ := Preenche.yMinPoly_int v h hne H
  have hyl0 : 0 ≤ pyTrunc (Preenche.yMinPoly v) := by
    rw [hml, pyTrunc_intCast]
    exact hml0
  have hcast : (((pyTrunc (Preenche.yMinPoly v) + (j : ℤ)).toNat : ℕ) : ℤ) =
      pyTrunc (Preenche.yMinPoly v) + (j : ℤ) := Int.toNat_of_nonneg (by omega)
  have A1 : (Preenche.preAetAt v j).map (fun e => e.x) =
      (Preenche.ipreAetAt v j).map (fun q => q.2.x) := by
    rw [← Preenche.ipreAet_proj, List.map_map]
    rfl
  have A2 : ((Preenche.ipreAetAt v j).map (fun q => q.2.x)).Perm
      ((Preenche.pActiveIdx v (pyTrunc (Preenche.yMinPoly v) + (j : ℤ))).map
        (fun q => q.2.x)) :=
    ((Preenche.ipre_inv v h hne H j).2).map _
  have A3 : (Preenche.pActiveIdx v (pyTrunc (Preenche.yMinPoly v) + (j : ℤ))).map
      (fun q => q.2.x) =
      (Trab1.activeIdx v h (pyTrunc (Preenche.yMinPoly v) + (j : ℤ))).map
        (fun q => q.2.x) :=
    (actX_eq v h H _).symm
  have A4 : ((Trab1.iAetAt v h
      (pyTrunc (Preenche.yMinPoly v) + (j : ℤ)).toNat).map (fun q => q.2.x)).Perm
      ((Trab1.activeIdx v h (pyTrunc (Preenche.yMinPoly v) + (j : ℤ))).map
        (fun q => q.2.x)) := by
    have := (Trab1.iAet_inv v h (pyTrunc (Preenche.yMinPoly v) + (j : ℤ)).toNat).map
      (fun q : ℕ × Trab1.Edge => q.2.x)
    rw [hcast] at this
    exact this
  have A5 : (Trab1.aetAt (Trab1.build_edge_table v h)
      (pyTrunc (Preenche.yMinPoly v) + (j : ℤ)).toNat).map (fun e => e.x) =
      (Trab1.iAetAt v h (pyTrunc (Preenche.yMinPoly v) + (j : ℤ)).toNat).map
        (fun q => q.2.x) := by
    rw [Trab1.aetAt_eq_proj, List.map_map]
    rfl
  have hperm : ((Preenche.preAetAt v j).map (fun e => e.x)).Perm
      ((Trab1.aetAt (Trab1.build_edge_table v h)
        (pyTrunc (Preenche.yMinPoly v) + (j : ℤ)).toNat).map (fun e => e.x)) := by
    rw [A1, A5]
    exact (A2.trans (List.Perm.of_eq A3)).trans A4.symm
  have hs1 : ((Preenche.preAetAt v j).map (fun e => e.x)).Pairwise (· ≤ ·) :=
    List.Pairwise.map _ (fun a b hab => hab) (preAet_x_pairwise v j)
  have hs2 : ((Trab1.aetAt (Trab1.build_edge_table v h)
      (pyTrunc (Preenche.yMinPoly v) + (j : ℤ)).toNat).map (fun e => e.x)).Pairwise
      (· ≤ ·) :=
    List.Pairwise.map _ (fun a b hab => hab) (aetAt_x_pairwise _ _)
  exact List.eq_of_perm_of_sorted hperm hs1 hs2

theorem chunk_eq (v : List (ℚ × ℚ)) (h : ℤ) (hne : v ≠ [])
    (H : ∀ p ∈ v, ∃ m : ℤ, p.2 = (m : ℚ) ∧ 0 ≤ m ∧ m ≤ h) (j : ℕ) :
    Preenche.runPairs (pyTrunc (Preenche.yMinPoly v) + (j : ℤ))
      (Preenche.preAetAt v j) =
      (Trab1.pairs (Trab1.aetAt (Trab1.build_edge_table v h)
        (pyTrunc (Preenche.yMinPoly v) + (j : ℤ)).toNat)).map
        (fun p => (pyTrunc (Preenche.yMinPoly v) + (j : ℤ),
          pyTrunc p.1, pyTrunc p.2)) :=
  runPairs_eq_pairs _ (Preenche.preAetAt v j).length _ _ le_rfl
    (aet_x_eq v h hne H j) (aetAt_x_pairwise _ _)

theorem activeIdx_before (v : List (ℚ × ℚ)) (h : ℤ) (hne : v ≠ [])
    (H : ∀ p ∈ v, ∃ m : ℤ, p.2 = (m : ℚ) ∧ 0 ≤ m ∧ m ≤ h) (y : ℤ)
    (hy : y < pyTrunc (Preenche.yMinPoly v)) :
    Trab1.activeIdx v h y = [] := by
  obtain ⟨ml, hml, hml0, hmlh, hmlle⟩ := Preenche.yMinPoly_int v h hne H
  have hylm : y < ml := by
    rw [hml, pyTrunc_intCast] at hy
    exact hy
  unfold Trab1.activeIdx
  rw [List.filterMap_eq_nil_iff]
  intro i hi
  have hin : i < v.length := List.mem_range.mp hi
  have hn0 : 0 < v.length := by omega
  have hj : (i + 1) % v.length < v.length := Nat.mod_lt _ hn0
  obtain ⟨a, hay, ha0, hah⟩ := Trab1.H_getD v h H i hin
  obtain ⟨b, hby, hb0, hbh⟩ := Trab1.H_getD v h H _ hj
  have hp1 : (Trab1.p1of v i).2 = (a : ℚ) := hay
  have hp2 : (Trab1.p2of v i).2 = (b : ℚ) := hby
  have hma : ml ≤ a := by
    have := hmlle _ (Preenche.getD_mem_of_lt v (0, 0) i hin)
    rw [hay] at this
    exact_mod_cast this
  have hmb : ml ≤ b := by
    have := hmlle _ (Preenche.getD_mem_of_lt v (0, 0) _ hj)
    rw [hby] at this
    exact_mod_cast this
  by_cases hab : a = b
  · subst hab
    have h1 : Trab1.edgeOf v h i = none := by
      rw [Trab1.edgeOf_eq, if_pos (by rw [hp1, hp2])]
    rw [h1]
    rfl
  · rw [Trab1.edgeOf_int v h i a b hp1 hp2 ha0 hb0 hah hbh hab]
    simp only [Option.some_bind]
    rw [if_neg]
    intro hcon
    have := hcon.1
    omega

theorem activeIdx_after (v : List (ℚ × ℚ)) (h : ℤ) (hne : v ≠ [])
    (H : ∀ p ∈ v, ∃ m : ℤ, p.2 = (m : ℚ) ∧ 0 ≤ m ∧ m ≤ h) (y : ℤ)
    (hy : pyTrunc (Preenche.yMaxPoly v) ≤ y) :
    Trab1.activeIdx v h y = [] := by
  obtain ⟨mh, hmh, hmh0, hmhh, hmhge⟩ := Preenche.yMaxPoly_int v h hne H
  have hymh : mh ≤ y := by
    rw [hmh, pyTrunc_intCast] at hy
    exact hy
  unfold Trab1.activeIdx
  rw [List.filterMap_eq_nil_iff]
  intro i hi
  have hin : i < v.length := List.mem_range.mp hi
  have hn0 : 0 < v.length := by omega
  have hj : (i + 1) % v.length < v.length := Nat.mod_lt _ hn0
  obtain ⟨a, hay, ha0, hah⟩ := Trab1.H_getD v h H i hin
  obtain ⟨b, hby, hb0, hbh⟩ := Trab1.H_getD v h H _ hj
  have hp1 : (Trab1.p1of v i).2 = (a : ℚ) := hay
  have hp2 : (Trab1.p2of v i).2 = (b : ℚ) := hby
  have hma : a ≤ mh := by
    have := hmhge _ (Preenche.getD_mem_of_lt v (0, 0) i hin)
    rw [hay] at this
    exact_mod_cast this
  have hmb : b ≤ mh := by
    have := hmhge _ (Preenche.getD_mem_of_lt v (0, 0) _ hj)
    rw [hby] at this
    exact_mod_cast this
  by_cases hab : a = b
  · subst hab
    have h1 : Trab1.edgeOf v h i = none := by
      rw [Trab1.edgeOf_eq, if_pos (by rw [hp1, hp2])]
    rw [h1]
    rfl
  · rw [Trab1.edgeOf_int v h i a b hp1 hp2 ha0 hb0 hah hbh hab]
    simp only [Option.some_bind]
    rw [if_neg]
    intro hcon
    have := hcon.2
    omega

theorem truncPairs_lead_empty (v : List (ℚ × ℚ)) (h : ℤ) (hne : v ≠ [])
    (H : ∀ p ∈ v, ∃ m : ℤ, p.2 = (m : ℚ) ∧ 0 ≤ m ∧ m ≤ h) :
    ∀ k : ℕ, (k : ℤ) ≤ pyTrunc (Preenche.yMinPoly v) →
      Trab1.truncPairsUpTo (Trab1.build_edge_table v h) k = [] := by
  intro k
  induction k with
  | zero => intro _; rfl
  | succ m ih =>
      intro hk
      have hm : (m : ℤ) ≤ pyTrunc (Preenche.yMinPoly v) := by
        push_cast at hk
        omega
      show Trab1.truncPairsUpTo _ m ++
        (Trab1.pairs (Trab1.aetAt _ m)).map _ = []
      rw [ih hm]
      have hnil : Trab1.aetAt (Trab1.build_edge_table v h) m = [] :=
        Trab1.aetAt_nil_of_activeIdx v h m
          (activeIdx_before v h hne H m (by push_cast at hk; omega))
      rw [hnil]
      rfl

theorem runs_eq_trunc (v : List (ℚ × ℚ)) (h : ℤ) (hne : v ≠ [])
    (H : ∀ p ∈ v, ∃ m : ℤ, p.2 = (m : ℚ) ∧ 0 ≤ m ∧ m ≤ h)
    (hyl0 : 0 ≤ pyTrunc (Preenche.yMinPoly v)) :
    ∀ j : ℕ, Preenche.runsUpTo v j =
      Trab1.truncPairsUpTo (Trab1.build_edge_table v h)
        ((pyTrunc (Preenche.yMinPoly v)).toNat + j) := by
  intro j
  induction j with
  | zero =>
      show ([] : List (ℤ × ℤ × ℤ)) = _
      rw [Nat.add_zero]
      refine (truncPairs_lead_empty v h hne H _ ?_).symm
      rw [Int.toNat_of_nonneg hyl0]
  | succ j ih =>
      have harith1 : (pyTrunc (Preenche.yMinPoly v) + (j : ℤ)).toNat =
          (pyTrunc (Preenche.yMinPoly v)).toNat + j := by omega
      have harith2 : (((pyTrunc (Preenche.yMinPoly v)).toNat + j : ℕ) : ℤ) =
          pyTrunc (Preenche.yMinPoly v) + (j : ℤ) := by
        push_cast
        omega
      show Preenche.runsUpTo v j ++
          Preenche.runPairs (pyTrunc (Preenche.yMinPoly v) + (j : ℤ))
            (Preenche.preAetAt v j) =
        Trab1.truncPairsUpTo (Trab1.build_edge_table v h)
          ((pyTrunc (Preenche.yMinPoly v)).toNat + j) ++
          (Trab1.pairs (Trab1.aetAt (Trab1.build_edge_table v h)
            ((pyTrunc (Preenche.yMinPoly v)).toNat + j))).map
            (fun p => ((((pyTrunc (Preenche.yMinPoly v)).toNat + j : ℕ) : ℤ),
              pyTrunc p.1, pyTrunc p.2))
      rw [ih, chunk_eq v h hne H j, harith1, harith2]

theorem truncPairs_stable (v : List (ℚ × ℚ)) (h : ℤ) (hne : v ≠ [])
    (H : ∀ p ∈ v, ∃ m : ℤ, p.2 = (m : ℚ) ∧ 0 ≤ m ∧ m ≤ h) (base : ℕ)
    (hbase : pyTrunc (Preenche.yMaxPoly v) ≤ (base : ℤ)) :
    ∀ t : ℕ, Trab1.truncPairsUpTo (Trab1.build_edge_table v h) (base + t) =
      Trab1.truncPairsUpTo (Trab1.build_edge_table v h) base := by
  intro t
  induction t with
  | zero => rfl
  | succ s ih =>
      show Trab1.truncPairsUpTo (Trab1.build_edge_table v h) (base + s) ++
          (Trab1.pairs (Trab1.aetAt (Trab1.build_edge_table v h) (base + s))).map
            (fun p => (((base + s : ℕ) : ℤ), pyTrunc p.1, pyTrunc p.2)) =
        Trab1.truncPairsUpTo (Trab1.build_edge_table v h) base
      have hnil : Trab1.aetAt (Trab1.build_edge_table v h) (base + s) = [] :=
        Trab1.aetAt_nil_of_activeIdx v h _
          (activeIdx_after v h hne H _ (by push_cast; omega))
      rw [hnil, ih]
      rw [show Trab1.pairs ([] : List Trab1.Edge) = [] from rfl, List.map_nil,
        List.append_nil]

/-- C8 corrected: the claimed equivalence of the two ET/AET copies fails in
general (see the counterexample: preenche.py emits zero-width runs that the
1e-6 width filter of trab1.py suppresses), but the two sweeps do agree before
that filter: for every polygon with at least 3 vertices whose vertex y
coordinates are integers within [0, height], the filled runs of fill_polygon
of preenche.py equal the pair list of compute_scanline_spans of trab1.py with
both span endpoints truncated toward zero. -/
theorem claim_C8_amended (v : List (ℚ × ℚ)) (h : ℤ) (hlen : 3 ≤ v.length)
    (H : ∀ p ∈ v, ∃ m : ℤ, p.2 = (m : ℚ) ∧ 0 ≤ m ∧ m ≤ h) :
    Preenche.fill_polygon_runs v = Trab1.trab1TruncPairs v h := by
  have hne : v ≠ [] := by
    intro hv
    rw [hv] at hlen
    simp at hlen
  obtain ⟨ml, hml, hml0, hmlh, hmlle⟩ := Preenche.yMinPoly_int v h hne H
  obtain ⟨mh, hmh, hmh0, hmhh, hmhge⟩ := Preenche.yMaxPoly_int v h hne H
  have hyl : pyTrunc (Preenche.yMinPoly v) = ml := by rw [hml, pyTrunc_intCast]
  have hyh : pyTrunc (Preenche.yMaxPoly v) = mh := by rw [hmh, pyTrunc_intCast]
  have hmlmh : ml ≤ mh := by
    obtain ⟨p0, hp0⟩ := List.exists_mem_of_ne_nil v hne
    have h1 := hmlle p0 hp0
    have h2 := hmhge p0 hp0
    exact_mod_cast le_trans h1 h2
  have hyl0 : 0 ≤ pyTrunc (Preenche.yMinPoly v) := by omega
  rw [Preenche.fill_polygon_runs, if_neg (by omega)]
  rw [runs_eq_trunc v h hne H hyl0
    (pyTrunc (Preenche.yMaxPoly v) + 1 - pyTrunc (Preenche.yMinPoly v)).toNat]
  rw [Trab1.trab1TruncPairs]
  have hbound : (pyTrunc (Preenche.yMinPoly v)).toNat +
      (pyTrunc (Preenche.yMaxPoly v) + 1 - pyTrunc (Preenche.yMinPoly v)).toNat ≤
      (h + 1).toNat := by omega
  obtain ⟨t, ht⟩ : ∃ t, (h + 1).toNat =
      ((pyTrunc (Preenche.yMinPoly v)).toNat +
        (pyTrunc (Preenche.yMaxPoly v) + 1 - pyTrunc (Preenche.yMinPoly v)).toNat) + t :=
    ⟨(h + 1).toNat - ((pyTrunc (Preenche.yMinPoly v)).toNat +
      (pyTrunc (Preenche.yMaxPoly v) + 1 - pyTrunc (Preenche.yMinPoly v)).toNat),
      by omega⟩
  rw [ht, truncPairs_stable v h hne H _ (by push_cast; omega) t]

theorem pyTrunc_zero : pyTrunc 0 = 0 := by
  rw [show ((0 : ℚ)) = ((0 : ℤ) : ℚ) by norm_num, pyTrunc_intCast]

theorem pyTrunc_one : pyTrunc 1 = 1 := by
  rw [show ((1 : ℚ)) = ((1 : ℤ) : ℚ) by norm_num, pyTrunc_intCast]

theorem pyTrunc_two : pyTrunc 2 = 2 := by
  rw [show ((2 : ℚ)) = ((2 : ℤ) : ℚ) by norm_num, pyTrunc_intCast]

theorem pyTrunc_three : pyTrunc 3 = 3 := by
  rw [show ((3 : ℚ)) = ((3 : ℤ) : ℚ) by norm_num, pyTrunc_intCast]

theorem pyTrunc_four : pyTrunc 4 = 4 := by
  rw [show ((4 : ℚ)) = ((4 : ℤ) : ℚ) by norm_num, pyTrunc_intCast]

theorem cex_P0 : Preenche.pedgeOf [(0,0),(4,4),(0,4)] 0 = some ⟨0, 4, 0, 1⟩ := by
  norm_num [Preenche.pedgeOf]

theorem cex_P1 : Preenche.pedgeOf [(0,0),(4,4),(0,4)] 1 = none := by
  norm_num [Preenche.pedgeOf]

theorem cex_P2 : Preenche.pedgeOf [(0,0),(4,4),(0,4)] 2 = some ⟨0, 4, 0, 0⟩ := by
  norm_num [Preenche.pedgeOf]

theorem cex_ET : Preenche.create_et [(0,0),(4,4),(0,4)] =
    [⟨0, 4, 0, 1⟩, ⟨0, 4, 0, 0⟩] := by
  rw [Preenche.create_et]
  rw [show List.range (List.length [((0:ℚ),(0:ℚ)),(4,4),(0,4)]) = [0,1,2] from rfl]
  simp only [List.filterMap_cons, List.filterMap_nil, cex_P0, cex_P1, cex_P2]
  norm_num [stableSort, insertLe, Preenche.ymLe, List.foldl]

theorem cex_ymin : Preenche.yMinPoly [(0,0),(4,4),(0,4)] = 0 := by
  norm_num [Preenche.yMinPoly, List.min?, List.foldl, min_def]

theorem cex_ymax : Preenche.yMaxPoly [(0,0),(4,4),(0,4)] = 4 := by
  norm_num [Preenche.yMaxPoly, List.max?, List.foldl, max_def]

theorem cex_tmin : pyTrunc (Preenche.yMinPoly [(0,0),(4,4),(0,4)]) = 0 := by
  rw [cex_ymin, pyTrunc_zero]

theorem cex_tmax : pyTrunc (Preenche.yMaxPoly [(0,0),(4,4),(0,4)]) = 4 := by
  rw [cex_ymax, pyTrunc_four]

theorem cex_S0 : Preenche.preEnter [(0,0),(4,4),(0,4)] 0 =
    ([⟨0, 4, 0, 1⟩, ⟨0, 4, 0, 0⟩], []) := by
  show (Preenche.create_et [(0,0),(4,4),(0,4)], []) = _
  rw [cex_ET]

theorem cex_A0 : Preenche.preAetAt [(0,0),(4,4),(0,4)] 0 =
    [⟨0, 4, 0, 1⟩, ⟨0, 4, 0, 0⟩] := by
  rw [Preenche.preAetAt, cex_S0, cex_tmin]
  norm_num [Preenche.preActive, stableSort, insertLe, Preenche.xLe, List.filter]

theorem cex_S1 : Preenche.preEnter [(0,0),(4,4),(0,4)] 1 =
    ([], [⟨0, 4, 1, 1⟩, ⟨0, 4, 0, 0⟩]) := by
  show (Preenche.preEtAfter (Preenche.preEnter [(0,0),(4,4),(0,4)] 0).1
      (pyTrunc (Preenche.yMinPoly [(0,0),(4,4),(0,4)]) + ((0:ℕ):ℤ)),
    Preenche.pAdvanceAll (Preenche.preAetAt [(0,0),(4,4),(0,4)] 0)) = _
  rw [cex_S0, cex_A0, cex_tmin]
  norm_num [Preenche.preEtAfter, Preenche.pAdvanceAll, List.filter]

theorem cex_A1 : Preenche.preAetAt [(0,0),(4,4),(0,4)] 1 =
    [⟨0, 4, 0, 0⟩, ⟨0, 4, 1, 1⟩] := by
  rw [Preenche.preAetAt, cex_S1, cex_tmin]
  norm_num [Preenche.preActive, stableSort, insertLe, Preenche.xLe, List.filter]

theorem cex_S2 : Preenche.preEnter [(0,0),(4,4),(0,4)] 2 =
    ([], [⟨0, 4, 0, 0⟩, ⟨0, 4, 2, 1⟩]) := by
  show (Preenche.preEtAfter (Preenche.preEnter [(0,0),(4,4),(0,4)] 1).1
      (pyTrunc (Preenche.yMinPoly [(0,0),(4,4),(0,4)]) + ((1:ℕ):ℤ)),
    Preenche.pAdvanceAll (Preenche.preAetAt [(0,0),(4,4),(0,4)] 1)) = _
  rw [cex_S1, cex_A1, cex_tmin]
  norm_num [Preenche.preEtAfter, Preenche.pAdvanceAll, List.filter]

theorem cex_A2 : Preenche.preAetAt [(0,0),(4,4),(0,4)] 2 =
    [⟨0, 4, 0, 0⟩, ⟨0, 4, 2, 1⟩] := by
  rw [Preenche.preAetAt, cex_S2, cex_tmin]
  norm_num [Preenche.preActive, stableSort, insertLe, Preenche.xLe, List.filter]

theorem cex_S3 : Preenche.preEnter [(0,0),(4,4),(0,4)] 3 =
    ([], [⟨0, 4, 0, 0⟩, ⟨0, 4, 3, 1⟩]) := by
  show (Preenche.preEtAfter (Preenche.preEnter [(0,0),(4,4),(0,4)] 2).1
      (pyTrunc (Preenche.yMinPoly [(0,0),(4,4),(0,4)]) + ((2:ℕ):ℤ)),
    Preenche.pAdvanceAll (Preenche.preAetAt [(0,0),(4,4),(0,4)] 2)) = _
  rw [cex_S2, cex_A2, cex_tmin]
  norm_num [Preenche.preEtAfter, Preenche.pAdvanceAll, List.filter]

theorem cex_A3 : Preenche.preAetAt [(0,0),(4,4),(0,4)] 3 =
    [⟨0, 4, 0, 0⟩, ⟨0, 4, 3, 1⟩] := by
  rw [Preenche.preAetAt, cex_S3, cex_tmin]
  norm_num [Preenche.preActive, stableSort, insertLe, Preenche.xLe, List.filter]

theorem cex_S4 : Preenche.preEnter [(0,0),(4,4),(0,4)] 4 =
    ([], [⟨0, 4, 0, 0⟩, ⟨0, 4, 4, 1⟩]) := by
  show (Preenche.preEtAfter (Preenche.preEnter [(0,0),(4,4),(0,4)] 3).1
      (pyTrunc (Preenche.yMinPoly [(0,0),(4,4),(0,4)]) + ((3:ℕ):ℤ)),
    Preenche.pAdvanceAll (Preenche.preAetAt [(0,0),(4,4),(0,4)] 3)) = _
  rw [cex_S3, cex_A3, cex_tmin]
  norm_num [Preenche.preEtAfter, Preenche.pAdvanceAll, List.filter]

theorem cex_A4 : Preenche.preAetAt [(0,0),(4,4),(0,4)] 4 = [] := by
  rw [Preenche.preAetAt, cex_S4, cex_tmin]
  norm_num [Preenche.preActive, stableSort, insertLe, Preenche.xLe, List.filter]

theorem cex_runs : Preenche.fill_polygon_runs [(0,0),(4,4),(0,4)] =
    [(0,0,0),(1,0,1),(2,0,2),(3,0,3)] := by
  rw [Preenche.fill_polygon_runs, if_neg (by norm_num)]
  rw [cex_tmin, cex_tmax]
  rw [show ((4:ℤ) + 1 - 0).toNat = 5 by rfl]
  simp only [Preenche.runsUpTo, cex_A0, cex_A1, cex_A2, cex_A3, cex_A4, cex_tmin]
  norm_num [Preenche.runPairs, pyTrunc_zero, pyTrunc_one, pyTrunc_two, pyTrunc_three]

theorem cex_E0 : Trab1.edgeOf [(0,0),(4,4),(0,4)] 4 0 = some (0, ⟨3, 0, 1⟩) := by
  norm_num [Trab1.edgeOf, pyRound, Int.fract]

theorem cex_E1 : Trab1.edgeOf [(0,0),(4,4),(0,4)] 4 1 = none := by
  norm_num [Trab1.edgeOf, pyRound, Int.fract]

theorem cex_E2 : Trab1.edgeOf [(0,0),(4,4),(0,4)] 4 2 = some (0, ⟨3, 0, 0⟩) := by
  norm_num [Trab1.edgeOf, pyRound, Int.fract]

theorem cex_TET : Trab1.build_edge_table [(0,0),(4,4),(0,4)] 4 =
    [[⟨3, 0, 1⟩, ⟨3, 0, 0⟩], [], [], [], []] := by
  rw [Trab1.build_edge_table]
  rw [show List.range (List.length [((0:ℚ),(0:ℚ)),(4,4),(0,4)]) = [0,1,2] from rfl]
  simp only [List.foldl_cons, List.foldl_nil, cex_E0, cex_E1, cex_E2]
  rfl

theorem cex_T0 : Trab1.aetAt [[⟨3, 0, 1⟩, ⟨3, 0, 0⟩], [], [], [], []] 0 =
    [⟨3, 0, 0⟩, ⟨3, 0, 1⟩] := by
  rw [Trab1.aetAt, Trab1.aetEnter, Trab1.activeAt, Trab1.bucketAt]
  norm_num [stableSort, insertLe, Trab1.edgeLe, List.filter]

theorem cex_T1 : Trab1.aetAt [[⟨3, 0, 1⟩, ⟨3, 0, 0⟩], [], [], [], []] 1 =
    [⟨3, 0, 0⟩, ⟨3, 1, 1⟩] := by
  rw [Trab1.aetAt, aetEnter_succ, cex_T0, Trab1.activeAt, Trab1.bucketAt]
  norm_num [stableSort, insertLe, Trab1.edgeLe, List.filter,
    Trab1.advanceAll, Trab1.advance]

theorem cex_T2 : Trab1.aetAt [[⟨3, 0, 1⟩, ⟨3, 0, 0⟩], [], [], [], []] 2 =
    [⟨3, 0, 0⟩, ⟨3, 2, 1⟩] := by
  rw [Trab1.aetAt, aetEnter_succ, cex_T1, Trab1.activeAt, Trab1.bucketAt]
  norm_num [stableSort, insertLe, Trab1.edgeLe, List.filter,
    Trab1.advanceAll, Trab1.advance]

theorem cex_T3 : Trab1.aetAt [[⟨3, 0, 1⟩, ⟨3, 0, 0⟩], [], [], [], []] 3 =
    [⟨3, 0, 0⟩, ⟨3, 3, 1⟩] := by
  rw [Trab1.aetAt, aetEnter_succ, cex_T2, Trab1.activeAt, Trab1.bucketAt]
  norm_num [stableSort, insertLe, Trab1.edgeLe, List.filter,
    Trab1.advanceAll, Trab1.advance]

theorem cex_T4 : Trab1.aetAt [[⟨3, 0, 1⟩, ⟨3, 0, 0⟩], [], [], [], []] 4 = [] := by
  rw [Trab1.aetAt, aetEnter_succ, cex_T3, Trab1.activeAt, Trab1.bucketAt]
  norm_num [stableSort, insertLe, Trab1.edgeLe, List.filter,
    Trab1.advanceAll, Trab1.advance]

theorem cex_spans : Trab1.compute_scanline_spans [(0,0),(4,4),(0,4)] 4 =
    [(1,0,1),(2,0,2),(3,0,3)] := by
  rw [Trab1.compute_scanline_spans, cex_TET,
    show ((4:ℤ) + 1).toNat = 5 by simp]
  simp only [Trab1.spansUpTo, cex_T0, cex_T1, cex_T2, cex_T3, cex_T4]
  norm_num [Trab1.emitAt, Trab1.pairs, Trab1.eps]

/-- C8 counterexample: for the triangle (0,0),(4,4),(0,4) at height 4 the two
copies disagree even after truncating span endpoints the same way:
fill_polygon of preenche.py draws the zero-width run (0,0,0) at scanline 0,
which compute_scanline_spans of trab1.py suppresses with its 1e-6 width
filter. -/
theorem claim_C8_counterexample :
    Preenche.fill_polygon_runs [(0,0),(4,4),(0,4)] ≠
      (Trab1.compute_scanline_spans [(0,0),(4,4),(0,4)] 4).map
        (fun s => (s.1, pyTrunc s.2.1, pyTrunc s.2.2)) := by
  rw [cex_runs, cex_spans]
  simp only [List.map_cons, List.map_nil, pyTrunc_zero, pyTrunc_one, pyTrunc_two,
    pyTrunc_three]
  decide

theorem claim_C8_amended_witness :
    Preenche.fill_polygon_runs [(0,0),(4,0),(2,2)] =
      Trab1.trab1TruncPairs [(0,0),(4,0),(2,2)] 2 :=
  claim_C8_amended [(0,0),(4,0),(2,2)] 2 (by norm_num)
    (by
      intro p hp
      simp only [List.mem_cons, List.not_mem_nil, or_false] at hp
      rcases hp with rfl | rfl | rfl
      · exact ⟨0, by norm_num⟩
      · exact ⟨0, by norm_num⟩
      · exact ⟨2, by norm_num⟩)
